import Mathlib

/-!
# Lift: tagged memory views and host atomics

A verification development for two files of the Lift library:

* `src/memory/pointer.h`: `tagged_pointer_base`, `pointer<host, ..>`, `pointer<cuda, ..>`;
* `src/lift/atomics_host.inl`: `atomics<host>::add` for `int32` and `float`.

Conventions of the embedding.

* A raw pointer `T*` is a natural number counting elements of `T`, so that the C++ expression
  `storage + k` is `storage + k` here and `storage[k]` is the object at `storage + k`.
  `nullptr` is the pointer `0`.
* A template parameter (`system`, `other_system`) is a parameter of the Lean type or function.
* A reference `T&` is the position of the object it is bound to; element memory is a function
  from positions to values.
* A 32-bit machine integer is an `Int` or `Nat` together with an explicit reduction modulo `2 ^ 32`.
-/

namespace lift

/-! ## `src/memory/pointer.h` -/

/-- Modelled from the spec: the enumeration `target_system` lives in `backends.h`, which is not part
of the sources at hand. The spec fixes two identities, the host processor and one accelerator; the
header `pointer.h` names them `host` and `cuda`. -/
inductive target_system where
  | host
  | cuda
  deriving DecidableEq, Repr

/-- The type `pointer_type` (`T*`): a position counted in elements. -/
abbrev pointer_type := Nat

/-- The null pointer. -/
def nullptr : pointer_type := 0

/-- Number of values of the default `_index_type`, `uint32`. -/
def index_modulus : Nat := 2 ^ 32

/-- The struct `tagged_pointer_base<system, T, _index_type>`: its two data members. The tag is a
parameter of the type, as in the template; it can be drawn from any type of tags `S`. -/
structure tagged_pointer_base {S : Type} (system : S) where
  storage : pointer_type
  storage_size : Nat
  deriving DecidableEq, Repr

namespace tagged_pointer_base

variable {S : Type} {system other_system : S}

/-- The enumerator `system_tag = system`. -/
def system_tag (_self : tagged_pointer_base system) : S := system

/-- The member `size()`. -/
def size (self : tagged_pointer_base system) : Nat := self.storage_size

/-- The member `empty()`. -/
def empty (self : tagged_pointer_base system) : Bool := self.storage_size == 0

/-- The member `data()`. -/
def data (self : tagged_pointer_base system) : pointer_type := self.storage

/-- The default constructor `tagged_pointer_base()`. -/
def default_ctor (system : S) : tagged_pointer_base system :=
  { storage := nullptr, storage_size := 0 }

/-- The converting constructor
`tagged_pointer_base(tagged_pointer_base<other_system, other_value_type, index_type>& other)`. -/
def convert_ctor [DecidableEq S] (system : S) (other : tagged_pointer_base other_system) :
    tagged_pointer_base system :=
  if system = other_system then
    { storage := other.data, storage_size := other.size }
  else
    -- create a bad pointer when assigning across systems
    { storage := nullptr, storage_size := 0 }

/-- The generic constructor `tagged_pointer_base(other_pointer& other)`, which compares `system`
with `other_pointer::system_tag`. Here `other_pointer` is any type with `system_tag`, `data()` and
`size()`: its size type need not be the `index_type` of the view under construction, and
`storage_size = other.size();` converts the length to that `index_type`, the default `uint32`,
that is, reduces it modulo `2 ^ 32`. A source with a wider size type is a view whose length may be
`2 ^ 32` or more. -/
def generic_ctor [DecidableEq S] (system : S) (other : tagged_pointer_base other_system) :
    tagged_pointer_base system :=
  if system = other.system_tag then
    { storage := other.data, storage_size := other.size % index_modulus }
  else
    { storage := nullptr, storage_size := 0 }

/-- The assignment `operator=`: both members of `*this` are overwritten and `*this` is returned. -/
def assign [DecidableEq S] (self : tagged_pointer_base system)
    (other : tagged_pointer_base other_system) : tagged_pointer_base system :=
  if system = other_system then
    { self with storage := other.data, storage_size := other.size }
  else
    -- create a bad pointer when assigning across systems
    { self with storage := nullptr, storage_size := 0 }

/-- The member `begin()`. -/
def begin (self : tagged_pointer_base system) : pointer_type := self.storage

/-- The member `begin() const`. -/
def begin_const (self : tagged_pointer_base system) : pointer_type := self.storage

/-- The member `end()`. -/
def end_ (self : tagged_pointer_base system) : pointer_type := self.storage + self.storage_size

/-- The member `end() const`. -/
def end_const (self : tagged_pointer_base system) : pointer_type :=
  self.storage + self.storage_size

/-- The member `cbegin()`. -/
def cbegin (self : tagged_pointer_base system) : pointer_type := self.storage

/-- The member `cend()`. -/
def cend (self : tagged_pointer_base system) : pointer_type := self.storage + self.storage_size

/-- The member `t_begin() const`: `return thrust_const_iterator_type(storage);`. The adaptor
template `thrust_iterator_adaptor` is declared in `thrust_wrappers.h`, which is not part of the
sources at hand; its constructor from a position is the parameter `adaptor`. -/
def t_begin_const {Iter : Type} (adaptor : pointer_type → Iter)
    (self : tagged_pointer_base system) : Iter :=
  adaptor self.storage

/-- The member `t_begin()`: `return thrust_iterator_type(storage);`. -/
def t_begin {Iter : Type} (adaptor : pointer_type → Iter)
    (self : tagged_pointer_base system) : Iter :=
  adaptor self.storage

/-- The member `t_end() const`: `return thrust_const_iterator_type(storage + storage_size);`. -/
def t_end_const {Iter : Type} (adaptor : pointer_type → Iter)
    (self : tagged_pointer_base system) : Iter :=
  adaptor (self.storage + self.storage_size)

/-- The member `t_end()`: `return thrust_iterator_type(storage + storage_size);`. -/
def t_end {Iter : Type} (adaptor : pointer_type → Iter)
    (self : tagged_pointer_base system) : Iter :=
  adaptor (self.storage + self.storage_size)

end tagged_pointer_base

/-- The invariant of a view: a null address comes with length zero. -/
abbrev view_invariant {S : Type} {system : S} (v : tagged_pointer_base system) : Prop :=
  v.data = nullptr → v.size = 0

/-- A view together with its tag. -/
abbrev tagged_view (S : Type) := (system : S) × tagged_pointer_base system

/-- The ways of making a view out of the view at hand: the converting constructor and the generic
constructor build a new view of tag `target`; `assign_to dst` assigns the view at hand to an
existing view `dst`, which is the result. -/
inductive view_op (S : Type) where
  | construct (target : S)
  | construct_generic (target : S)
  | assign_to (target : S) (dst : tagged_pointer_base target)

/-- Effect of one operation on the view at hand. -/
def apply_op {S : Type} [DecidableEq S] (v : tagged_view S) : view_op S → tagged_view S
  | .construct target => ⟨target, tagged_pointer_base.convert_ctor target v.2⟩
  | .construct_generic target => ⟨target, tagged_pointer_base.generic_ctor target v.2⟩
  | .assign_to target dst => ⟨target, dst.assign v.2⟩

/-- Effect of a sequence of operations. -/
def apply_ops {S : Type} [DecidableEq S] (v : tagged_view S) (ops : List (view_op S)) :
    tagged_view S :=
  ops.foldl apply_op v

/-- Element memory: the value of type `T` stored at each position. -/
abbrev Memory (T : Type) := pointer_type → T

/-- Memory after the object at `addr` is overwritten with `v`. -/
def Memory.store {T : Type} (mem : Memory T) (addr : pointer_type) (v : T) : Memory T :=
  fun a => if a = addr then v else mem a

/-- What an accessor declared to return `T&` or `const T&` hands back.

* `element addr`: the reference is bound to the array element at `addr` (the expression
  `storage[pos]`);
* `pointer_temporary p`: the returned expression was the *pointer* `p` (the expression
  `&storage[pos]`), so the reference is bound to a temporary converted from that pointer value. -/
inductive reference where
  | element (addr : pointer_type)
  | pointer_temporary (p : pointer_type)
  deriving DecidableEq, Repr

/-- Reading through a reference. `conv` is the conversion from `T*` to `T` that initialises the
temporary of `pointer_temporary`; the array is not consulted in that case. -/
def reference.load {T : Type} (conv : pointer_type → T) (mem : Memory T) : reference → T
  | .element addr => mem addr
  | .pointer_temporary p => conv p

/-- Writing through a reference. A write to a temporary leaves the array as it was. -/
def reference.store {T : Type} (mem : Memory T) : reference → T → Memory T
  | .element addr, v => mem.store addr v
  | .pointer_temporary _, _ => mem

/-- The view `self` wraps the array `a`: it has `a.length` elements and element `i` of `a` is
stored at `storage + i`. -/
def wraps {S : Type} {system : S} {T : Type} (mem : Memory T) (self : tagged_pointer_base system)
    (a : List T) : Prop :=
  self.storage_size = a.length ∧ ∀ i, i < a.length → a[i]? = some (mem (self.storage + i))

/-- Memory holding the array `a` from position `base` on, and `dflt` elsewhere. -/
def array_memory {T : Type} (dflt : T) (base : pointer_type) (a : List T) : Memory T :=
  fun addr => if base ≤ addr then a.getD (addr - base) dflt else dflt

/-- The specialisation `pointer<host, T, _index_type>`. The `const` overload of each accessor is
listed next to the mutable one, under the name with suffix `_const`. -/
abbrev pointer_host := tagged_pointer_base target_system.host

namespace pointer_host

/-- The accessor `at(pos) const`: `return base::storage[pos];`. -/
def at_const (self : pointer_host) (pos : Nat) : reference := .element (self.storage + pos)

/-- The accessor `at(pos)`: `return base::storage[pos];`. -/
def at_ (self : pointer_host) (pos : Nat) : reference := .element (self.storage + pos)

/-- The accessor `operator[](pos) const`: `return base::storage[pos];`. -/
def op_index_const (self : pointer_host) (pos : Nat) : reference := .element (self.storage + pos)

/-- The accessor `operator[](pos)`: `return base::storage[pos];`. -/
def op_index (self : pointer_host) (pos : Nat) : reference := .element (self.storage + pos)

/-- The accessor `front() const`: `return base::storage[0];`. -/
def front_const (self : pointer_host) : reference := .element (self.storage + 0)

/-- The accessor `front()`: `return base::storage[0];`. -/
def front (self : pointer_host) : reference := .element (self.storage + 0)

/-- The accessor `back() const`: `return &base::storage[base::storage_size - 1];`. The subtraction
is carried out in `size_type`, an unsigned 32-bit type. -/
def back_const (self : pointer_host) : reference :=
  .pointer_temporary (self.storage + (self.storage_size + index_modulus - 1) % index_modulus)

/-- The accessor `back()`: `return &base::storage[base::storage_size - 1];`. -/
def back (self : pointer_host) : reference :=
  .pointer_temporary (self.storage + (self.storage_size + index_modulus - 1) % index_modulus)

end pointer_host

/-- The specialisation `pointer<cuda, T, _index_type>`, accessors compiled under
`LIFT_DEVICE_COMPILATION`. -/
abbrev pointer_cuda := tagged_pointer_base target_system.cuda

namespace pointer_cuda

/-- The device accessor `at(pos) const`: `return base::storage[pos];`. -/
def at_const (self : pointer_cuda) (pos : Nat) : reference := .element (self.storage + pos)

/-- The device accessor `at(pos)`: `return base::storage[pos];`. -/
def at_ (self : pointer_cuda) (pos : Nat) : reference := .element (self.storage + pos)

/-- The device accessor `operator[](pos) const`: `return base::storage[pos];`. -/
def op_index_const (self : pointer_cuda) (pos : Nat) : reference := .element (self.storage + pos)

/-- The device accessor `operator[](pos)`: `return base::storage[pos];`. -/
def op_index (self : pointer_cuda) (pos : Nat) : reference := .element (self.storage + pos)

/-- The device accessor `front() const`: `return base::storage[0];`. -/
def front_const (self : pointer_cuda) : reference := .element (self.storage + 0)

/-- The device accessor `front()`: `return base::storage[0];`. -/
def front (self : pointer_cuda) : reference := .element (self.storage + 0)

/-- The device accessor `back() const`: `return base::storage[base::storage_size - 1];`. -/
def back_const (self : pointer_cuda) : reference :=
  .element (self.storage + (self.storage_size + index_modulus - 1) % index_modulus)

/-- The device accessor `back()`: `return base::storage[base::storage_size - 1];`. -/
def back (self : pointer_cuda) : reference :=
  .element (self.storage + (self.storage_size + index_modulus - 1) % index_modulus)

end pointer_cuda

/-! ### Accelerator view, accessors compiled for the host

Accelerator memory is seen byte by byte. An element type `T` enters through its size `sizeof_T`
and through `from_bytes`, the value of the object whose representation is a given list of bytes.
The runtime call `cudaMemcpy(dst, src, count, cudaMemcpyDeviceToHost)` is external: it is a
parameter, which maps accelerator memory, the byte address `src` and `count` to the bytes found in
the destination buffer afterwards and the accelerator memory afterwards. -/

/-- Accelerator memory: the byte stored at each byte address. -/
abbrev device_memory := Nat → Nat

/-- Byte address of the element position `p`, for elements of `sizeof_T` bytes. -/
def byte_address (sizeof_T : Nat) (p : pointer_type) : Nat := p * sizeof_T

/-- The `count` bytes of accelerator memory from byte address `src` on. -/
def device_bytes (dev : device_memory) (src count : Nat) : List Nat :=
  (List.range count).map (fun k => dev (src + k))

/-- A copy primitive is faithful when it delivers the bytes of the source range and leaves
accelerator memory as it was. -/
def faithful_copy (cudaMemcpy : device_memory → Nat → Nat → List Nat × device_memory) : Prop :=
  ∀ dev src count, cudaMemcpy dev src count = (device_bytes dev src count, dev)

/-- The copy primitive that reads the source range. -/
def plain_copy (dev : device_memory) (src count : Nat) : List Nat × device_memory :=
  (device_bytes dev src count, dev)

/-- Little-endian value of a list of bytes. -/
def bytes_to_nat : List Nat → Nat
  | [] => 0
  | b :: rest => b + 256 * bytes_to_nat rest

/-- Accelerator memory holding the bytes `bytes` from byte address `base` on, zero elsewhere. -/
def device_array (base : Nat) (bytes : List Nat) : device_memory :=
  fun addr => if base ≤ addr then bytes.getD (addr - base) 0 else 0

namespace pointer_cuda

/-- The member `storage_read(pos) const`:
`value_type v = value_type(); cudaMemcpy((void *) &v, &base::storage[pos], sizeof(value_type),
cudaMemcpyDeviceToHost); return v;`. The result is the value returned, the accelerator memory
after the call and the view after the call (the member is `const` and assigns nothing). -/
def storage_read {T : Type} (cudaMemcpy : device_memory → Nat → Nat → List Nat × device_memory)
    (sizeof_T : Nat) (from_bytes : List Nat → T) (dev : device_memory) (self : pointer_cuda)
    (pos : Nat) : T × device_memory × pointer_cuda :=
  let r := cudaMemcpy dev (byte_address sizeof_T (self.storage + pos)) sizeof_T
  (from_bytes r.1, r.2, self)

/-- The host accessor `at(pos) const`: `return storage_read(pos);`. -/
def host_at {T : Type} (cudaMemcpy : device_memory → Nat → Nat → List Nat × device_memory)
    (sizeof_T : Nat) (from_bytes : List Nat → T) (dev : device_memory) (self : pointer_cuda)
    (pos : Nat) : T × device_memory × pointer_cuda :=
  storage_read cudaMemcpy sizeof_T from_bytes dev self pos

/-- The host accessor `operator[](pos) const`: `return storage_read(pos);`. -/
def host_op_index {T : Type} (cudaMemcpy : device_memory → Nat → Nat → List Nat × device_memory)
    (sizeof_T : Nat) (from_bytes : List Nat → T) (dev : device_memory) (self : pointer_cuda)
    (pos : Nat) : T × device_memory × pointer_cuda :=
  storage_read cudaMemcpy sizeof_T from_bytes dev self pos

end pointer_cuda

/-- An accelerator view of three elements of four bytes stored from position `1000` on. -/
def device_view : pointer_cuda := { storage := 1000, storage_size := 3 }

/-- Accelerator memory holding the elements `10, 20, 30`, four bytes each, least significant byte
first, from byte address `4000` on. -/
def device_scenario : device_memory :=
  device_array 4000 [10, 0, 0, 0, 20, 0, 0, 0, 30, 0, 0, 0]

/-- A host-tagged source with a 64-bit size type: `2 ^ 32 + 3` elements from position `1000`
on. -/
def wide_source : tagged_pointer_base target_system.host :=
  { storage := 1000, storage_size := 4294967299 }

/-- The host view of the scenario: three elements stored from position `1000` on. -/
def scenario_view : pointer_host := { storage := 1000, storage_size := 3 }

/-- The host array of the scenario. -/
def scenario_array : List Int := [10, 20, 30]

/-- The memory of the scenario: the array `[10, 20, 30]` stored from position `1000` on. -/
def scenario_memory : Memory Int := array_memory 0 1000 scenario_array

/-- Conversion of a pointer value to an `int` element, as a permissive compiler performs it: the
numeric value of the pointer. -/
def pointer_to_int (p : pointer_type) : Int := (p : Int)

/-- The standard conversion of a pointer value to `bool`: true unless the pointer is null. -/
def pointer_to_bool (p : pointer_type) : Bool := p != nullptr

/-- A host view of two `bool` elements stored from position `1000` on. -/
def flags_view : pointer_host := { storage := 1000, storage_size := 2 }

/-- Memory holding the `bool` array `[true, false]` from position `1000` on. -/
def flags_memory : Memory Bool := array_memory false 1000 [true, false]

/-! ## `src/lift/atomics_host.inl` -/

/-- Reduction of an integer to the range of `int32` (two's complement, modulo `2 ^ 32`). -/
def wrap_int32 (x : Int) : Int := (x + 2 ^ 31) % 2 ^ 32 - 2 ^ 31

/-- The integer `x` is a value of `int32`. -/
abbrev is_int32 (x : Int) : Prop := -2 ^ 31 ≤ x ∧ x < 2 ^ 31

/-- The compiler builtin `__atomic_fetch_add(address, val, __ATOMIC_SEQ_CST)` on an `int32`
location holding `contents`: one indivisible read-modify-write. The result is the pair of the
value returned and the new contents of the location; the sum wraps. -/
def atomic_fetch_add (contents val : Int) : Int × Int :=
  (contents, wrap_int32 (contents + val))

/-- The compiler builtin `__atomic_compare_exchange(ptr, expected, desired, false, ..)` on a
`uint32` location holding `contents`, in its strong form: one indivisible step. The result is
the success flag, the new contents of `*ptr` and the new contents of `*expected`. -/
def atomic_compare_exchange (contents expected desired : Nat) : Bool × Nat × Nat :=
  if contents = expected then (true, desired, expected) else (false, contents, contents)

/-- Where a call of `atomics<host>::add(float*, float)` stands. A `float` object is represented
by its 32-bit pattern; copying a `float` keeps the pattern.

* `at_read`: at the top of the loop body, before `oldval = *addr_v`;
* `at_cas oldval`: `oldval` is read, the compare-exchange is next;
* `returned oldval`: the loop is left and `oldval` is returned. -/
inductive float_pc where
  | at_read
  | at_cas (oldval : Nat)
  | returned (oldval : Nat)
  deriving DecidableEq, Repr

/-- A call of `atomics<host>::add(float*, float)` in progress: its position and the number of
loop iterations it has finished. -/
structure float_call where
  pc : float_pc
  iterations : Nat
  deriving DecidableEq, Repr

/-- A call that has just been entered. -/
def float_call.start : float_call := { pc := .at_read, iterations := 0 }

namespace atomics_host

/-- The function `atomics<host>::add(int32 *address, int32 val)`: value returned and new contents
of `*address`. -/
def add_int32 (contents val : Int) : Int × Int :=
  atomic_fetch_add contents val

/-- One step of `atomics<host>::add(float *address, float val)` up to and including its next
access to `*address`, which holds `contents`; `fadd` is the addition of `float` on bit patterns.
The result is the new contents of `*address` and the new state of the call.

* From `at_read`: `oldval = *addr_v;`.
* From `at_cas oldval`: `expected = oldval; desired = expected + val;`, the compare-exchange, and
  the test `if (bits of expected == bits of oldval) break;` followed by `return oldval;`. -/
def add_float_step (fadd : Nat → Nat → Nat) (val : Nat) (contents : Nat) (c : float_call) :
    Nat × float_call :=
  match c.pc with
  | .at_read => (contents, { c with pc := .at_cas contents })
  | .at_cas oldval =>
      let expected := oldval
      let desired := fadd expected val
      let r := atomic_compare_exchange contents expected desired
      if r.2.2 = oldval then
        (r.2.1, { pc := .returned oldval, iterations := c.iterations + 1 })
      else
        (r.2.1, { pc := .at_read, iterations := c.iterations + 1 })
  | .returned _ => (contents, c)

end atomics_host

/-- What can happen to the location while one call of the floating-point `add` is in progress:
the call takes its next step, or some other writer stores the pattern `bits`. -/
inductive event where
  | call_step
  | other_write (bits : Nat)
  deriving DecidableEq, Repr

/-- Effect of one event on the contents of the location and on the call. -/
def event_step (fadd : Nat → Nat → Nat) (val : Nat) (s : Nat × float_call) :
    event → Nat × float_call
  | .call_step => atomics_host.add_float_step fadd val s.1 s.2
  | .other_write bits => (bits, s.2)

/-- Effect of a sequence of events. -/
def run_events (fadd : Nat → Nat → Nat) (val : Nat) (s : Nat × float_call)
    (trace : List event) : Nat × float_call :=
  trace.foldl (event_step fadd val) s

/-- No other writer changes the location along the trace: every `other_write` stores the pattern
that is already there. -/
def undisturbed (fadd : Nat → Nat → Nat) (val : Nat) : Nat × float_call → List event → Bool
  | _, [] => true
  | s, .call_step :: trace => undisturbed fadd val (event_step fadd val s .call_step) trace
  | s, .other_write bits :: trace => bits == s.1 && undisturbed fadd val (bits, s.2) trace

/-- The call has not returned yet. -/
def float_call.in_progress (c : float_call) : Bool :=
  match c.pc with
  | .returned _ => false
  | _ => true

/-- Number of times another writer changes the bit pattern of the location while the call is in
progress: the `other_write` events, up to the return of the call, that store a pattern different
from the one in place. -/
def changes (fadd : Nat → Nat → Nat) (val : Nat) : Nat × float_call → List event → Nat
  | _, [] => 0
  | s, .call_step :: trace => changes fadd val (event_step fadd val s .call_step) trace
  | s, .other_write bits :: trace =>
      (if s.2.in_progress && bits != s.1 then 1 else 0) + changes fadd val (bits, s.2) trace

/-- Loop iterations a call may still finish when the location is yet to be changed `c` times:
one per change and the one that succeeds, and one more if the pattern it has read is already
stale. -/
def iteration_budget (s : Nat × float_call) (c : Nat) : Nat :=
  match s.2.pc with
  | .at_read => c + 1
  | .at_cas oldval => c + 1 + (if s.1 = oldval then 0 else 1)
  | .returned _ => 0

/-- Steps of its own after which a call has returned when the location is yet to be changed `c`
times: two per iteration. -/
def step_budget (s : Nat × float_call) (c : Nat) : Nat :=
  match s.2.pc with
  | .at_read => 2 * c + 2
  | .at_cas oldval => 2 * c + 1 + (if s.1 = oldval then 0 else 2)
  | .returned _ => 0

/-- The pattern is a NaN of the `float` format: exponent all ones, fraction not zero. -/
def f32_is_nan (b : Nat) : Bool := b / 2 ^ 23 % 256 == 255 && b % 2 ^ 23 != 0

/-! ### Concurrent callers

Every access to the shared location is sequentially consistent, so an execution of several
callers is an interleaving of their accesses: a schedule lists, step by step, the caller that
moves. -/

/-- Several callers of the integer `add` on one location: contents of the location, for each
caller the number of calls it still has to make, and the values returned so far, oldest first. -/
structure int_system where
  location : Int
  pending : List Nat
  returned : List Int
  deriving DecidableEq, Repr

namespace int_system

/-- State before any call: `counts` gives the number of calls of each caller. -/
def init (v0 : Int) (counts : List Nat) : int_system :=
  { location := v0, pending := counts, returned := [] }

/-- Caller `t` makes its next call `add(&location, val)`, if it has one left. -/
def step (val : Int) (s : int_system) (t : Nat) : int_system :=
  match s.pending[t]? with
  | some (k + 1) =>
      let r := atomics_host.add_int32 s.location val
      { location := r.2, pending := s.pending.set t k, returned := s.returned ++ [r.1] }
  | _ => s

/-- Run a schedule. -/
def run (val : Int) (s : int_system) (sched : List Nat) : int_system :=
  sched.foldl (step val) s

/-- Every caller has made all its calls. -/
def complete (s : int_system) : Bool := s.pending.all (fun k => k == 0)

end int_system

/-- A caller of the floating-point `add`: the number of calls it still has to finish and the
state of the call in progress. -/
structure float_caller where
  todo : Nat
  call : float_call
  deriving DecidableEq, Repr

/-- Several callers of the floating-point `add` on one location: contents of the location (a bit
pattern), the callers, and the values returned so far, oldest first. -/
structure float_system where
  location : Nat
  callers : List float_caller
  returned : List Nat
  deriving DecidableEq, Repr

namespace float_system

/-- State before any call: the location holds `bits`, `counts` gives the number of calls of each
caller. -/
def init (bits : Nat) (counts : List Nat) : float_system :=
  { location := bits
    callers := counts.map (fun k => { todo := k, call := float_call.start })
    returned := [] }

/-- Caller `t` takes the next step of its current call, if it has calls left. When the call
returns, the value is recorded and the caller stands at the entry of its next call. -/
def step (fadd : Nat → Nat → Nat) (val : Nat) (s : float_system) (t : Nat) : float_system :=
  match s.callers[t]? with
  | some { todo := k + 1, call := c } =>
      let r := atomics_host.add_float_step fadd val s.location c
      match r.2.pc with
      | .returned oldval =>
          { location := r.1
            callers := s.callers.set t { todo := k, call := float_call.start }
            returned := s.returned ++ [oldval] }
      | _ =>
          { location := r.1
            callers := s.callers.set t { todo := k + 1, call := r.2 }
            returned := s.returned }
  | _ => s

/-- Run a schedule. -/
def run (fadd : Nat → Nat → Nat) (val : Nat) (s : float_system) (sched : List Nat) :
    float_system :=
  sched.foldl (step fadd val) s

/-- Every caller has finished all its calls. -/
def complete (s : float_system) : Bool := s.callers.all (fun c => c.todo == 0)

end float_system

/-- The pattern held by the location after `k` additions of `val`, one after the other, starting
from the pattern `bits`. -/
def float_chain (fadd : Nat → Nat → Nat) (val : Nat) (bits : Nat) : Nat → Nat
  | 0 => bits
  | k + 1 => fadd (float_chain fadd val bits k) val

/-! ### The `float` format

IEEE 754 binary32: bit 31 is the sign, bits 30..23 the biased exponent, bits 22..0 the fraction.
Every finite value is an integer multiple of `2 ^ (-149)`. -/

/-- Sign bit of a pattern. -/
def f32_sign (b : Nat) : Nat := b / 2 ^ 31 % 2

/-- Biased exponent of a pattern. -/
def f32_exponent (b : Nat) : Nat := b / 2 ^ 23 % 256

/-- Fraction field of a pattern. -/
def f32_fraction (b : Nat) : Nat := b % 2 ^ 23

/-- Absolute value of a finite pattern, in units of `2 ^ (-149)`. -/
def f32_magnitude (b : Nat) : Nat :=
  if f32_exponent b = 0 then f32_fraction b
  else (2 ^ 23 + f32_fraction b) * 2 ^ (f32_exponent b - 1)

/-- Value of a pattern in units of `2 ^ (-149)`; `none` for infinities and NaNs. -/
def f32_scaled (b : Nat) : Option Int :=
  if f32_exponent b = 255 then none
  else if f32_sign b = 1 then some (-(f32_magnitude b : Int))
  else some (f32_magnitude b : Int)

/-- Least `sh` at or above the given one with `m / 2 ^ sh < 2 ^ 24`, searched over `fuel` steps. -/
def f32_shift : Nat → Nat → Nat → Nat
  | 0, _, sh => sh
  | fuel + 1, m, sh => if m / 2 ^ sh < 2 ^ 24 then sh else f32_shift fuel m (sh + 1)

/-- Bits 30..0 of the `float` nearest to `m * 2 ^ (-149)`, ties to even; infinity on overflow. -/
def f32_round (m : Nat) : Nat :=
  let sh := f32_shift 300 m 0
  let q := m / 2 ^ sh
  let r := m % 2 ^ sh
  let up : Bool := decide (2 ^ sh < 2 * r) || (decide (2 * r = 2 ^ sh) && decide (q % 2 = 1))
  let enc := sh * 2 ^ 23 + (if up then q + 1 else q)
  if enc < 255 * 2 ^ 23 then enc else 255 * 2 ^ 23

/-- Addition of `float` in the default rounding mode, on patterns. A NaN operand is returned
quieted, the first one first; opposite infinities give the default NaN. -/
def f32_add (a b : Nat) : Nat :=
  if f32_exponent a = 255 ∧ f32_fraction a ≠ 0 then a ||| 2 ^ 22
  else if f32_exponent b = 255 ∧ f32_fraction b ≠ 0 then b ||| 2 ^ 22
  else if f32_exponent a = 255 then
    if f32_exponent b = 255 ∧ f32_sign a ≠ f32_sign b then 2 ^ 31 + 255 * 2 ^ 23 + 2 ^ 22 else a
  else if f32_exponent b = 255 then b
  else
    let sa : Int := if f32_sign a = 1 then -(f32_magnitude a : Int) else (f32_magnitude a : Int)
    let sb : Int := if f32_sign b = 1 then -(f32_magnitude b : Int) else (f32_magnitude b : Int)
    let s := sa + sb
    if s = 0 then (if f32_sign a = 1 ∧ f32_sign b = 1 then 2 ^ 31 else 0)
    else if s < 0 then 2 ^ 31 + f32_round s.natAbs
    else f32_round s.natAbs

/-- Steps a call may spend in its current iteration beyond the bare count, plus one: none extra
when the pattern it has read is still in the location, two more when that pattern is stale (the
compare-exchange will fail and the read be repeated). -/
def call_slack (location : Nat) (c : float_call) : Nat :=
  match c.pc with
  | .at_read => 1
  | .at_cas oldval => if location = oldval then 0 else 2
  | .returned _ => 1

/-- Bound on the steps caller `t` still has to take before all its calls have returned: two for
each call that any caller has yet to finish (its own calls, and the calls of others that can
make one of its iterations fail), adjusted by where its current call stands. -/
def steps_left (s : float_system) (t : Nat) : Nat :=
  match s.callers[t]? with
  | some { todo := _ + 1, call := c } =>
      2 * (s.callers.map float_caller.todo).sum - 1 + call_slack s.location c
  | _ => 0

/-- What holds of the callers of the integer `add` at every moment: the location holds the
initial value advanced once per value returned, and the values returned are the successive
contents. -/
def int_invariant (v0 : Int) (total : Nat) (s : int_system) : Prop :=
  s.location = wrap_int32 (v0 + s.returned.length) ∧
  s.returned = (List.range s.returned.length).map (fun i : Nat => wrap_int32 (v0 + i)) ∧
  s.returned.length + s.pending.sum = total

/-- What holds of the callers of the floating-point `add` at every moment: the location holds the
initial pattern advanced once per value returned, the values returned are the successive
contents, and no caller is left standing on a call that has returned. -/
def float_invariant (fadd : Nat → Nat → Nat) (val bits : Nat) (total : Nat)
    (s : float_system) : Prop :=
  s.location = float_chain fadd val bits s.returned.length ∧
  s.returned = (List.range s.returned.length).map (float_chain fadd val bits) ∧
  s.returned.length + (s.callers.map float_caller.todo).sum = total ∧
  ∀ c ∈ s.callers, ∀ o, c.call.pc ≠ float_pc.returned o

/-! ## Theorems: tagged pointer views -/

/-- C1: for distinct backend tags `B1 ≠ B2` and every source view of tag `B2`, whatever its
address and length, the view of tag `B1` built by the converting constructor, and the view of tag
`B1` after assignment from the source, has `data() == nullptr` and `size() == 0`. -/
theorem cross_backend_conversion_invalidates {S : Type} [DecidableEq S] (B1 B2 : S)
    (h : B1 ≠ B2) (src : tagged_pointer_base B2) (dst : tagged_pointer_base B1) :
    (tagged_pointer_base.convert_ctor B1 src).data = nullptr ∧
    (tagged_pointer_base.convert_ctor B1 src).size = 0 ∧
    (dst.assign src).data = nullptr ∧
    (dst.assign src).size = 0 := by
  simp [tagged_pointer_base.convert_ctor, tagged_pointer_base.assign, tagged_pointer_base.data,
    tagged_pointer_base.size, h]

/-- Instance of C1: an accelerator view of three elements at position `1000`, converted or
assigned to a host view. -/
theorem cross_backend_conversion_invalidates_witness :
    target_system.host ≠ target_system.cuda ∧
    (tagged_pointer_base.convert_ctor target_system.host
      ({ storage := 1000, storage_size := 3 } : tagged_pointer_base target_system.cuda)).data
      = nullptr ∧
    (tagged_pointer_base.convert_ctor target_system.host
      ({ storage := 1000, storage_size := 3 } : tagged_pointer_base target_system.cuda)).size
      = 0 ∧
    (scenario_view.assign
      ({ storage := 1000, storage_size := 3 } : tagged_pointer_base target_system.cuda)).data
      = nullptr ∧
    (scenario_view.assign
      ({ storage := 1000, storage_size := 3 } : tagged_pointer_base target_system.cuda)).size
      = 0 :=
  ⟨by decide,
    cross_backend_conversion_invalidates target_system.host target_system.cuda (by decide)
      { storage := 1000, storage_size := 3 } scenario_view⟩

/-- C2: for every backend tag `B` and every source view `s` of tag `B`, the view of tag `B` built
by the converting constructor from `s`, and the view of tag `B` after assignment from `s`, has
`data()` equal to `s.data()` and `size()` equal to `s.size()`. -/
theorem same_backend_conversion_preserves {S : Type} [DecidableEq S] (B : S)
    (s dst : tagged_pointer_base B) :
    (tagged_pointer_base.convert_ctor B s).data = s.data ∧
    (tagged_pointer_base.convert_ctor B s).size = s.size ∧
    (dst.assign s).data = s.data ∧
    (dst.assign s).size = s.size := by
  simp [tagged_pointer_base.convert_ctor, tagged_pointer_base.assign, tagged_pointer_base.data,
    tagged_pointer_base.size]

/-- C3: a default-constructed view, for every backend tag, has `data() == nullptr` and
`size() == 0`; hence `empty()` is true and `begin() == end()`. -/
theorem default_view_is_empty {S : Type} (system : S) :
    (tagged_pointer_base.default_ctor system).data = nullptr ∧
    (tagged_pointer_base.default_ctor system).size = 0 ∧
    (tagged_pointer_base.default_ctor system).empty = true ∧
    (tagged_pointer_base.default_ctor system).begin
      = (tagged_pointer_base.default_ctor system).end_ ∧
    (tagged_pointer_base.default_ctor system).begin_const
      = (tagged_pointer_base.default_ctor system).end_const := by
  simp [tagged_pointer_base.default_ctor, tagged_pointer_base.data, tagged_pointer_base.size,
    tagged_pointer_base.empty, tagged_pointer_base.begin, tagged_pointer_base.end_,
    tagged_pointer_base.begin_const, tagged_pointer_base.end_const]

/-- The scenario memory holds `[10, 20, 30]` under the scenario view. -/
theorem scenario_wraps : wraps scenario_memory scenario_view scenario_array := by
  refine ⟨rfl, ?_⟩
  intro i hi
  have h3 : i < 3 := hi
  interval_cases i <;> rfl

/-- C4, evaluated on the host view over `[10, 20, 30]`: `at(2)` is bound to the last element and
reads `30`, while both overloads of `back()` hand back the position of that element, so that what
is read through them is a conversion of the number `1002` whatever the array holds. The device
accessor of the accelerator view, at the same address and length, is bound to the element. For an
element type to which a pointer converts implicitly the same shows on `bool`: over
`[true, false]`, `at(1)` reads `false` and `back()` reads `true`. -/
theorem host_back_yields_address :
    pointer_host.at_ scenario_view 2 = reference.element 1002 ∧
    (pointer_host.at_ scenario_view 2).load pointer_to_int scenario_memory = 30 ∧
    pointer_host.back scenario_view = reference.pointer_temporary 1002 ∧
    pointer_host.back_const scenario_view = reference.pointer_temporary 1002 ∧
    (pointer_host.back scenario_view).load pointer_to_int scenario_memory = 1002 ∧
    (pointer_host.back_const scenario_view).load pointer_to_int scenario_memory = 1002 ∧
    (∀ (conv : pointer_type → Int) (mem : Memory Int),
      (pointer_host.back scenario_view).load conv mem = conv 1002 ∧
      (pointer_host.back_const scenario_view).load conv mem = conv 1002) ∧
    pointer_cuda.back { storage := 1000, storage_size := 3 } = reference.element 1002 ∧
    (pointer_host.at_ flags_view 1).load pointer_to_bool flags_memory = false ∧
    (pointer_host.back flags_view).load pointer_to_bool flags_memory = true ∧
    (pointer_host.back_const flags_view).load pointer_to_bool flags_memory = true := by
  refine ⟨rfl, rfl, ?_, ?_, ?_, ?_, ?_, ?_, ?_, ?_, ?_⟩
  · decide
  · decide
  · decide
  · decide
  · intro conv mem
    have hb : pointer_host.back scenario_view = reference.pointer_temporary 1002 := by decide
    have hc : pointer_host.back_const scenario_view = reference.pointer_temporary 1002 := by
      decide
    rw [hb, hc]
    exact ⟨rfl, rfl⟩
  · decide
  · decide
  · decide
  · decide

/-- C5: for a host view wrapping an array of length at least one, `front()` is the very reference
`at(0)`, for the mutable and the `const` overload, and what is read through it is the first
element of the array. -/
theorem host_front_is_at_zero {T : Type} (conv : pointer_type → T) (mem : Memory T)
    (self : pointer_host) (a : List T) (hw : wraps mem self a) (hn : 1 ≤ a.length) :
    pointer_host.front self = pointer_host.at_ self 0 ∧
    pointer_host.front_const self = pointer_host.at_const self 0 ∧
    a[0]? = some ((pointer_host.front self).load conv mem) ∧
    a[0]? = some ((pointer_host.front_const self).load conv mem) := by
  have h0 := hw.2 0 (by omega)
  refine ⟨rfl, rfl, ?_, ?_⟩
  · simpa [pointer_host.front, reference.load] using h0
  · simpa [pointer_host.front_const, reference.load] using h0

/-- Instance of C5: on the view wrapping `[10, 20, 30]`, `front()` is `at(0)` and reads `10`, for
both overloads. -/
theorem host_front_is_at_zero_witness :
    wraps scenario_memory scenario_view scenario_array ∧ 1 ≤ scenario_array.length ∧
    pointer_host.front scenario_view = pointer_host.at_ scenario_view 0 ∧
    pointer_host.front_const scenario_view = pointer_host.at_const scenario_view 0 ∧
    (pointer_host.front scenario_view).load pointer_to_int scenario_memory = 10 ∧
    (pointer_host.front_const scenario_view).load pointer_to_int scenario_memory = 10 :=
  have h := host_front_is_at_zero pointer_to_int scenario_memory scenario_view scenario_array
    scenario_wraps (by decide)
  have h1 : some (10 : Int)
      = some ((pointer_host.front scenario_view).load pointer_to_int scenario_memory) :=
    h.2.2.1
  have h2 : some (10 : Int)
      = some ((pointer_host.front_const scenario_view).load pointer_to_int scenario_memory) :=
    h.2.2.2
  ⟨scenario_wraps, by decide, h.1, h.2.1, (Option.some.inj h1).symm, (Option.some.inj h2).symm⟩

/-- C6: for a host view wrapping an array `a` and every index `i` below its length, `at(i)` and
`operator[](i)` are one and the same reference, bound to element `i`; reading through either
gives `a[i]`; a value written through either is read back through the other; and after such a
write every element at an index `j ≠ i` still reads `a[j]`. -/
theorem host_indexed_access {T : Type} (conv : pointer_type → T) (mem : Memory T)
    (self : pointer_host) (a : List T) (hw : wraps mem self a) (i : Nat) (hi : i < a.length) :
    pointer_host.at_ self i = pointer_host.op_index self i ∧
    pointer_host.at_const self i = pointer_host.op_index_const self i ∧
    pointer_host.at_const self i = pointer_host.at_ self i ∧
    a[i]? = some ((pointer_host.at_ self i).load conv mem) ∧
    a[i]? = some ((pointer_host.op_index self i).load conv mem) ∧
    ∀ x : T,
      (pointer_host.op_index self i).load conv ((pointer_host.at_ self i).store mem x) = x ∧
      (pointer_host.at_ self i).load conv ((pointer_host.op_index self i).store mem x) = x ∧
      ∀ j, j < a.length → j ≠ i →
        a[j]? = some ((pointer_host.at_ self j).load conv
          ((pointer_host.at_ self i).store mem x)) ∧
        a[j]? = some ((pointer_host.op_index self j).load conv
          ((pointer_host.op_index self i).store mem x)) := by
  have hi0 := hw.2 i hi
  refine ⟨rfl, rfl, rfl, ?_, ?_, ?_⟩
  · simpa [pointer_host.at_, reference.load] using hi0
  · simpa [pointer_host.op_index, reference.load] using hi0
  · intro x
    refine ⟨?_, ?_, ?_⟩
    · simp [pointer_host.at_, pointer_host.op_index, reference.load, reference.store,
        Memory.store]
    · simp [pointer_host.at_, pointer_host.op_index, reference.load, reference.store,
        Memory.store]
    · intro j hj hji
      have hj0 := hw.2 j hj
      constructor
      · simpa [pointer_host.at_, reference.load, reference.store, Memory.store, hji] using hj0
      · simpa [pointer_host.op_index, reference.load, reference.store, Memory.store, hji]
          using hj0

/-- Instance of C6: on the view wrapping `[10, 20, 30]`, index `1`: both accessors read `20`;
after `77` is written through `at(1)`, `operator[](1)` reads `77` and `operator[](2)` still reads
`30`. -/
theorem host_indexed_access_witness :
    wraps scenario_memory scenario_view scenario_array ∧ 1 < scenario_array.length ∧
    (pointer_host.at_ scenario_view 1).load pointer_to_int scenario_memory = 20 ∧
    (pointer_host.op_index scenario_view 1).load pointer_to_int scenario_memory = 20 ∧
    (pointer_host.op_index scenario_view 1).load pointer_to_int
      ((pointer_host.at_ scenario_view 1).store scenario_memory 77) = 77 ∧
    (pointer_host.op_index scenario_view 2).load pointer_to_int
      ((pointer_host.op_index scenario_view 1).store scenario_memory 77) = 30 :=
  have h := host_indexed_access pointer_to_int scenario_memory scenario_view scenario_array
    scenario_wraps 1 (by decide)
  have h1 : some (20 : Int)
      = some ((pointer_host.at_ scenario_view 1).load pointer_to_int scenario_memory) :=
    h.2.2.2.1
  have h2 : some (20 : Int)
      = some ((pointer_host.op_index scenario_view 1).load pointer_to_int scenario_memory) :=
    h.2.2.2.2.1
  have h3 : some (30 : Int)
      = some ((pointer_host.op_index scenario_view 2).load pointer_to_int
          ((pointer_host.op_index scenario_view 1).store scenario_memory 77)) :=
    ((h.2.2.2.2.2 77).2.2 2 (by decide) (by decide)).2
  ⟨scenario_wraps, by decide, (Option.some.inj h1).symm, (Option.some.inj h2).symm,
    (h.2.2.2.2.2 77).1, (Option.some.inj h3).symm⟩

set_option maxRecDepth 20000

/-! ## Theorems: host atomics -/

/-- Wrapping is the identity on values of `int32`. -/
theorem wrap_int32_of_is_int32 (x : Int) (h : is_int32 x) : wrap_int32 x = x := by
  obtain ⟨h1, h2⟩ := h
  unfold wrap_int32
  omega

/-- Wrapping lands in `int32`. -/
theorem is_int32_wrap_int32 (x : Int) : is_int32 (wrap_int32 x) := by
  unfold wrap_int32
  constructor <;> omega

/-- Wrapping an intermediate result does not change the wrapped sum. -/
theorem wrap_int32_add_wrap (x d : Int) : wrap_int32 (wrap_int32 x + d) = wrap_int32 (x + d) := by
  unfold wrap_int32
  omega

/-- C7: the host integer `add` is fetch-and-add. For every 32-bit value `p` at the location and
every delta `d`, the call returns `p` and leaves `p + d` reduced modulo `2 ^ 32` into the range of
`int32` (hence `p + d` itself when that is in range); a caller with one call to make is done after
a single step, which is the call. -/
theorem host_int_add_is_fetch_add (p d : Int) (hp : is_int32 p) (hd : is_int32 d) :
    (atomics_host.add_int32 p d).1 = p ∧
    (atomics_host.add_int32 p d).2 = wrap_int32 (p + d) ∧
    is_int32 (atomics_host.add_int32 p d).2 ∧
    ((atomics_host.add_int32 p d).2 - (p + d)) % 2 ^ 32 = 0 ∧
    (is_int32 (p + d) → (atomics_host.add_int32 p d).2 = p + d) ∧
    int_system.step d (int_system.init p [1]) 0
      = { location := wrap_int32 (p + d), pending := [0], returned := [p] } := by
  have hpd := hp.1
  have hdd := hd.1
  refine ⟨rfl, rfl, is_int32_wrap_int32 _, ?_, ?_, ?_⟩
  · show (wrap_int32 (p + d) - (p + d)) % 2 ^ 32 = 0
    unfold wrap_int32
    omega
  · intro h
    exact wrap_int32_of_is_int32 _ h
  · simp [int_system.step, int_system.init, atomics_host.add_int32, atomic_fetch_add]

/-- Instance of C7: the largest `int32` plus one wraps to the smallest. -/
theorem host_int_add_is_fetch_add_witness :
    is_int32 2147483647 ∧ is_int32 1 ∧
    (atomics_host.add_int32 2147483647 1).1 = 2147483647 ∧
    (atomics_host.add_int32 2147483647 1).2 = -2147483648 :=
  have h := host_int_add_is_fetch_add 2147483647 1 (by decide) (by decide)
  ⟨by decide, by decide, h.1, by decide⟩

/-- A call that has returned stays as it is, and so does the location when no writer changes
it. -/
theorem run_events_returned (fadd : Nat → Nat → Nat) (val : Nat) (trace : List event) :
    ∀ (m o k : Nat),
      undisturbed fadd val (m, { pc := .returned o, iterations := k }) trace = true →
      run_events fadd val (m, { pc := .returned o, iterations := k }) trace
        = (m, { pc := .returned o, iterations := k }) := by
  induction trace with
  | nil => intro m o k _; rfl
  | cons e trace ih =>
    intro m o k hq
    cases e with
    | call_step =>
      have hs : event_step fadd val (m, { pc := .returned o, iterations := k }) .call_step
          = (m, { pc := .returned o, iterations := k }) := rfl
      simp only [undisturbed, hs] at hq
      simp only [run_events, List.foldl_cons, hs]
      exact ih m o k hq
    | other_write bits =>
      simp only [undisturbed, Bool.and_eq_true, beq_iff_eq] at hq
      obtain ⟨hb, hq⟩ := hq
      subst hb
      simp only [run_events, List.foldl_cons, event_step]
      exact ih _ o k hq

/-- From the compare-exchange on, an undisturbed call ends with its first iteration. -/
theorem run_events_at_cas (fadd : Nat → Nat → Nat) (val : Nat) (trace : List event) :
    ∀ (m : Nat),
      undisturbed fadd val (m, { pc := .at_cas m, iterations := 0 }) trace = true →
      1 ≤ trace.count .call_step →
      run_events fadd val (m, { pc := .at_cas m, iterations := 0 }) trace
        = (fadd m val, { pc := .returned m, iterations := 1 }) := by
  induction trace with
  | nil => intro m _ hn; simp at hn
  | cons e trace ih =>
    intro m hq hn
    cases e with
    | call_step =>
      have hs : event_step fadd val (m, { pc := .at_cas m, iterations := 0 }) .call_step
          = (fadd m val, { pc := .returned m, iterations := 1 }) := by
        simp [event_step, atomics_host.add_float_step, atomic_compare_exchange]
      simp only [undisturbed, hs] at hq
      simp only [run_events, List.foldl_cons, hs]
      exact run_events_returned fadd val trace _ _ _ hq
    | other_write bits =>
      simp only [undisturbed, Bool.and_eq_true, beq_iff_eq] at hq
      obtain ⟨hb, hq⟩ := hq
      subst hb
      simp only [run_events, List.foldl_cons, event_step]
      refine ih _ hq ?_
      simpa using hn

/-- C8: the host floating-point `add` when no other writer changes the location during the call.
Started on a location holding the pattern `observed`, once the call has taken its two steps (the
read and the compare-exchange) it has returned `observed` after exactly one loop iteration, and
the location holds the pattern of `observed + val`. -/
theorem host_float_add_undisturbed (fadd : Nat → Nat → Nat) (val observed : Nat)
    (trace : List event)
    (hq : undisturbed fadd val (observed, float_call.start) trace = true)
    (hn : 2 ≤ trace.count .call_step) :
    run_events fadd val (observed, float_call.start) trace
      = (fadd observed val, { pc := .returned observed, iterations := 1 }) := by
  induction trace with
  | nil => simp at hn
  | cons e trace ih =>
    cases e with
    | call_step =>
      have hs : event_step fadd val (observed, float_call.start) .call_step
          = (observed, { pc := .at_cas observed, iterations := 0 }) := rfl
      simp only [undisturbed, hs] at hq
      simp only [run_events, List.foldl_cons, hs]
      refine run_events_at_cas fadd val trace observed hq ?_
      simp only [List.count_cons_self] at hn
      omega
    | other_write bits =>
      simp only [undisturbed, Bool.and_eq_true, beq_iff_eq] at hq
      obtain ⟨hb, hq⟩ := hq
      subst hb
      simp only [run_events, List.foldl_cons, event_step]
      refine ih hq ?_
      simpa using hn

/-- Instance of C8: `1.0f` is added to a location holding `2.0f`, another writer storing `2.0f`
again in between; the call returns `2.0f` after one iteration and leaves `3.0f`. -/
theorem host_float_add_undisturbed_witness :
    undisturbed f32_add 0x3F800000 (0x40000000, float_call.start)
      [.call_step, .other_write 0x40000000, .call_step] = true ∧
    2 ≤ [event.call_step, .other_write 0x40000000, .call_step].count .call_step ∧
    run_events f32_add 0x3F800000 (0x40000000, float_call.start)
      [.call_step, .other_write 0x40000000, .call_step]
      = (0x40400000, { pc := .returned 0x40000000, iterations := 1 }) :=
  ⟨by decide, by decide,
    host_float_add_undisturbed f32_add 0x3F800000 0x40000000
      [.call_step, .other_write 0x40000000, .call_step] (by decide) (by decide)⟩

/-! ### Interleavings -/

/-- Replacing entry `t` of a list changes the sum of `f` over it by the difference at `t`. -/
theorem sum_map_set {α : Type} (f : α → Nat) (x y : α) :
    ∀ (l : List α) (t : Nat), l[t]? = some y →
      ((l.set t x).map f).sum + f y = (l.map f).sum + f x := by
  intro l
  induction l with
  | nil => intro t h; simp at h
  | cons a l ih =>
    intro t h
    cases t with
    | zero =>
      simp only [List.getElem?_cons_zero, Option.some.injEq] at h
      subst h
      simp only [List.set_cons_zero, List.map_cons, List.sum_cons]
      omega
    | succ t =>
      simp only [List.getElem?_cons_succ] at h
      have := ih t h
      simp only [List.set_cons_succ, List.map_cons, List.sum_cons]
      omega

/-- A sum of terms that all vanish is zero. -/
theorem sum_map_eq_zero {α : Type} (f : α → Nat) (l : List α) (h : ∀ x ∈ l, f x = 0) :
    (l.map f).sum = 0 := by
  induction l with
  | nil => rfl
  | cons a l ih =>
    simp only [List.map_cons, List.sum_cons]
    rw [h a (List.mem_cons_self a l), ih (fun x hx => h x (List.mem_cons_of_mem a hx))]

/-- Appending the next term to an initial segment of a sequence. -/
theorem map_range_succ {β : Type} (g : Nat → β) (n : Nat) :
    (List.range (n + 1)).map g = (List.range n).map g ++ [g n] := by
  simp [List.range_succ]

/-- One step keeps the invariant of the integer callers. -/
theorem int_invariant_step (v0 : Int) (total : Nat) (s : int_system) (t : Nat)
    (h : int_invariant v0 total s) : int_invariant v0 total (int_system.step 1 s t) := by
  obtain ⟨hloc, hret, hsum⟩ := h
  unfold int_system.step
  cases hp : s.pending[t]? with
  | none => exact ⟨hloc, hret, hsum⟩
  | some k =>
    cases k with
    | zero => exact ⟨hloc, hret, hsum⟩
    | succ k =>
      have hset := sum_map_set id k (k + 1) s.pending t hp
      simp only [List.map_id, id] at hset
      refine ⟨?_, ?_, ?_⟩
      · simp only [atomics_host.add_int32, atomic_fetch_add, List.length_append,
          List.length_singleton, hloc, wrap_int32_add_wrap]
        push_cast
        rw [add_assoc]
      · simp only [atomics_host.add_int32, atomic_fetch_add, List.length_append,
          List.length_singleton]
        rw [map_range_succ, ← hret, hloc]
      · simp only [List.length_append, List.length_singleton]
        omega

/-- Every schedule keeps the invariant of the integer callers. -/
theorem int_invariant_run (v0 : Int) (total : Nat) (sched : List Nat) :
    ∀ s : int_system, int_invariant v0 total s →
      int_invariant v0 total (int_system.run 1 s sched) := by
  induction sched with
  | nil => intro s h; exact h
  | cons t sched ih =>
    intro s h
    exact ih _ (int_invariant_step v0 total s t h)

/-- The invariant holds before any call, for an initial value of type `int32`. -/
theorem int_invariant_init (v0 : Int) (hv : is_int32 v0) (counts : List Nat) :
    int_invariant v0 counts.sum (int_system.init v0 counts) := by
  refine ⟨?_, rfl, ?_⟩
  · simp [int_system.init, wrap_int32_of_is_int32 v0 hv]
  · simp [int_system.init]

/-- C9, as stated, fails at the top of the range: one call of `add(loc, 1)` on a location
holding the largest `int32` completes, returns that value and leaves the smallest `int32`, not
`v0 + 1`. -/
theorem int_add_final_value_overflows :
    (int_system.run 1 (int_system.init 2147483647 [1]) [0]).complete = true ∧
    (int_system.run 1 (int_system.init 2147483647 [1]) [0]).returned = [2147483647] ∧
    (int_system.run 1 (int_system.init 2147483647 [1]) [0]).location = -2147483648 ∧
    (int_system.run 1 (int_system.init 2147483647 [1]) [0]).location ≠ 2147483647 + 1 := by
  decide

/-- C9, amended: callers make `counts.sum = K` calls of the host integer `add(loc, 1)` in all on a
location holding the `int32` value `v0`. In every interleaving that lets them all finish, the
location ends with `v0 + K` reduced modulo `2 ^ 32` and the values returned are, in the order of
the calls, `v0, v0 + 1, .., v0 + K - 1` reduced likewise. When `v0 + K` is still an `int32`
nothing wraps: the location ends with `v0 + K` and the values returned are exactly
`v0, .., v0 + K - 1`, without duplicate and without gap. -/
theorem int_add_linearizable (v0 : Int) (hv : is_int32 v0) (counts sched : List Nat)
    (hc : (int_system.run 1 (int_system.init v0 counts) sched).complete = true) :
    (int_system.run 1 (int_system.init v0 counts) sched).location
      = wrap_int32 (v0 + counts.sum) ∧
    (int_system.run 1 (int_system.init v0 counts) sched).returned
      = (List.range counts.sum).map (fun i : Nat => wrap_int32 (v0 + i)) ∧
    (v0 + counts.sum < 2 ^ 31 →
      (int_system.run 1 (int_system.init v0 counts) sched).location = v0 + counts.sum ∧
      (int_system.run 1 (int_system.init v0 counts) sched).returned
        = (List.range counts.sum).map (fun i : Nat => v0 + i) ∧
      (int_system.run 1 (int_system.init v0 counts) sched).returned.Nodup) := by
  obtain ⟨hloc, hret, hsum⟩ :=
    int_invariant_run v0 counts.sum sched _ (int_invariant_init v0 hv counts)
  have hzero : (int_system.run 1 (int_system.init v0 counts) sched).pending.sum = 0 := by
    have h0 := sum_map_eq_zero id
      (int_system.run 1 (int_system.init v0 counts) sched).pending (by
        intro x hx
        have := List.all_eq_true.mp hc x hx
        simpa using this)
    simpa using h0
  have hlen : (int_system.run 1 (int_system.init v0 counts) sched).returned.length
      = counts.sum := by omega
  rw [hlen] at hloc hret
  refine ⟨hloc, hret, ?_⟩
  intro hK
  have hmap : (List.range counts.sum).map (fun i : Nat => wrap_int32 (v0 + i))
      = (List.range counts.sum).map (fun i : Nat => v0 + i) := by
    apply List.map_congr_left
    intro i hi
    have hi2 : i < counts.sum := List.mem_range.mp hi
    apply wrap_int32_of_is_int32
    constructor
    · have := hv.1
      omega
    · omega
  refine ⟨?_, ?_, ?_⟩
  · rw [hloc]
    apply wrap_int32_of_is_int32
    constructor
    · have := hv.1
      omega
    · exact hK
  · rw [hret, hmap]
  · rw [hret, hmap]
    apply List.Nodup.map _ (List.nodup_range _)
    intro i j hij
    simpa using hij

/-- Instance of C9: two callers with two calls each, interleaved, starting from `0`. -/
theorem int_add_linearizable_witness :
    is_int32 0 ∧
    (int_system.run 1 (int_system.init 0 [2, 2]) [0, 1, 1, 0]).complete = true ∧
    (int_system.run 1 (int_system.init 0 [2, 2]) [0, 1, 1, 0]).location = 4 ∧
    (int_system.run 1 (int_system.init 0 [2, 2]) [0, 1, 1, 0]).returned = [0, 1, 2, 3] :=
  have h := int_add_linearizable 0 (by decide) [2, 2] [0, 1, 1, 0] (by decide)
  ⟨by decide, by decide, (h.2.2 (by decide)).1, (h.2.2 (by decide)).2.1⟩

/-- One step keeps the invariant of the floating-point callers. -/
theorem float_invariant_step (fadd : Nat → Nat → Nat) (val bits total : Nat) (s : float_system)
    (t : Nat) (h : float_invariant fadd val bits total s) :
    float_invariant fadd val bits total (float_system.step fadd val s t) := by
  obtain ⟨hloc, hret, hsum, hpc⟩ := h
  unfold float_system.step
  cases hp : s.callers[t]? with
  | none => exact ⟨hloc, hret, hsum, hpc⟩
  | some c =>
    obtain ⟨todo, call⟩ := c
    cases todo with
    | zero => exact ⟨hloc, hret, hsum, hpc⟩
    | succ k =>
      have hmem : ({ todo := k + 1, call := call } : float_caller) ∈ s.callers :=
        List.getElem?_mem hp
      have hcall := hpc _ hmem
      obtain ⟨pc, iters⟩ := call
      cases pc with
      | at_read =>
        have hset := sum_map_set float_caller.todo
          { todo := k + 1, call := { pc := .at_cas s.location, iterations := iters } }
          { todo := k + 1, call := { pc := .at_read, iterations := iters } } s.callers t hp
        simp only [atomics_host.add_float_step]
        refine ⟨hloc, hret, ?_, ?_⟩
        · simp only at hset ⊢
          omega
        · intro c hc o
          rcases List.mem_or_eq_of_mem_set hc with hc | hc
          · exact hpc c hc o
          · subst hc
            simp
      | at_cas oldval =>
        by_cases heq : s.location = oldval
        · have hset := sum_map_set float_caller.todo
            { todo := k, call := float_call.start }
            { todo := k + 1, call := { pc := .at_cas oldval, iterations := iters } }
            s.callers t hp
          simp only [atomics_host.add_float_step, atomic_compare_exchange, heq, if_true]
          refine ⟨?_, ?_, ?_, ?_⟩
          · simp only [List.length_append, List.length_singleton, float_chain]
            rw [← hloc, heq]
          · simp only [List.length_append, List.length_singleton]
            rw [map_range_succ, ← hret, ← hloc, heq]
          · simp only [List.length_append, List.length_singleton] at hset ⊢
            omega
          · intro c hc o
            rcases List.mem_or_eq_of_mem_set hc with hc | hc
            · exact hpc c hc o
            · subst hc
              simp [float_call.start]
        · have hset := sum_map_set float_caller.todo
            { todo := k + 1, call := { pc := .at_read, iterations := iters + 1 } }
            { todo := k + 1, call := { pc := .at_cas oldval, iterations := iters } }
            s.callers t hp
          simp only [atomics_host.add_float_step, atomic_compare_exchange, heq, if_false]
          refine ⟨hloc, hret, ?_, ?_⟩
          · simp only at hset ⊢
            omega
          · intro c hc o
            rcases List.mem_or_eq_of_mem_set hc with hc | hc
            · exact hpc c hc o
            · subst hc
              simp
      | returned o => exact absurd rfl (hcall o)

/-- Every schedule keeps the invariant of the floating-point callers. -/
theorem float_invariant_run (fadd : Nat → Nat → Nat) (val bits total : Nat) (sched : List Nat) :
    ∀ s : float_system, float_invariant fadd val bits total s →
      float_invariant fadd val bits total (float_system.run fadd val s sched) := by
  induction sched with
  | nil => intro s h; exact h
  | cons t sched ih =>
    intro s h
    exact ih _ (float_invariant_step fadd val bits total s t h)

/-- The invariant holds before any call. -/
theorem float_invariant_init (fadd : Nat → Nat → Nat) (val bits : Nat) (counts : List Nat) :
    float_invariant fadd val bits counts.sum (float_system.init bits counts) := by
  refine ⟨rfl, rfl, ?_, ?_⟩
  · simp [float_system.init, Function.comp_def]
  · intro c hc o
    simp only [float_system.init, List.mem_map] at hc
    obtain ⟨k, _, rfl⟩ := hc
    simp [float_call.start]

/-- When each addition along the chain is exact, the pattern after `k` additions has value
`k` times the value of the addend. -/
theorem float_chain_scaled (fadd : Nat → Nat → Nat) (val : Nat) (sv : Int) (total : Nat)
    (hexact : ∀ k, k < total → ∃ x : Int,
      f32_scaled (float_chain fadd val 0 k) = some x ∧
      f32_scaled (fadd (float_chain fadd val 0 k) val) = some (x + sv)) :
    ∀ k, k ≤ total → f32_scaled (float_chain fadd val 0 k) = some ((k : Int) * sv) := by
  intro k
  induction k with
  | zero =>
    intro _
    simp only [float_chain, Nat.cast_zero, zero_mul]
    decide
  | succ k ih =>
    intro hk
    obtain ⟨x, hx, hx2⟩ := hexact k (by omega)
    rw [ih (by omega)] at hx
    simp only [Option.some.injEq] at hx
    simp only [float_chain]
    rw [hx2, ← hx]
    push_cast
    ring_nf

/-- C10, as stated, fails in two ways, each with a finite addend that is exactly representable
and a location initialised to `+0.0f`.

* Addend `+0.0f`, two callers, one call each: both calls return `+0.0f`, so the returned values
  are not pairwise distinct.
* Addend `1 + 2 ^ (-23)` (pattern `0x3F800001`), three callers, one call each: the third addition
  rounds, and the location ends with a value (in units of `2 ^ (-149)`) that is not three times
  the addend. -/
theorem float_add_exact_sum_fails :
    f32_scaled 0 = some 0 ∧
    (float_system.run f32_add 0 (float_system.init 0 [1, 1]) [0, 0, 1, 1]).complete = true ∧
    (float_system.run f32_add 0 (float_system.init 0 [1, 1]) [0, 0, 1, 1]).returned = [0, 0] ∧
    ¬ (float_system.run f32_add 0 (float_system.init 0 [1, 1]) [0, 0, 1, 1]).returned.Nodup ∧
    f32_scaled 0x3F800001 = some (8388609 * 2 ^ 126) ∧
    (float_system.run f32_add 0x3F800001 (float_system.init 0 [1, 1, 1])
      [0, 0, 1, 1, 2, 2]).complete = true ∧
    (float_system.run f32_add 0x3F800001 (float_system.init 0 [1, 1, 1])
      [0, 0, 1, 1, 2, 2]).location = 0x40400002 ∧
    f32_scaled (float_system.run f32_add 0x3F800001 (float_system.init 0 [1, 1, 1])
      [0, 0, 1, 1, 2, 2]).location ≠ some (3 * (8388609 * 2 ^ 126)) := by
  refine ⟨by decide, by decide, by decide, by decide, by decide, by decide, by decide, by decide⟩

/-! ## Theorems: conversions and iterators of views -/

/-- Every conversion and assignment whose source satisfies the invariant gives a view that
satisfies it. -/
theorem view_invariant_conversions {S : Type} [DecidableEq S] (B1 B2 : S)
    (src : tagged_pointer_base B2) (dst : tagged_pointer_base B1) (h : view_invariant src) :
    view_invariant (tagged_pointer_base.convert_ctor B1 src) ∧
    view_invariant (tagged_pointer_base.generic_ctor B1 src) ∧
    view_invariant (dst.assign src) := by
  unfold view_invariant at h ⊢
  by_cases hB : B1 = B2
  · subst hB
    simp only [tagged_pointer_base.convert_ctor, tagged_pointer_base.generic_ctor,
      tagged_pointer_base.assign, tagged_pointer_base.system_tag, tagged_pointer_base.data,
      tagged_pointer_base.size, if_true] at h ⊢
    refine ⟨h, ?_, h⟩
    intro h0
    rw [h h0]
    rfl
  · simp [tagged_pointer_base.convert_ctor, tagged_pointer_base.generic_ctor,
      tagged_pointer_base.assign, tagged_pointer_base.system_tag, tagged_pointer_base.data,
      tagged_pointer_base.size, hB]

/-- Every sequence of operations keeps the invariant. -/
theorem view_invariant_apply_ops {S : Type} [DecidableEq S] (ops : List (view_op S)) :
    ∀ v : tagged_view S, view_invariant v.2 → view_invariant (apply_ops v ops).2 := by
  induction ops with
  | nil => intro v h; exact h
  | cons op ops ih =>
    intro v h
    refine ih (apply_op v op) ?_
    cases op with
    | construct target =>
      exact (view_invariant_conversions target v.1 v.2 (tagged_pointer_base.default_ctor target)
        h).1
    | construct_generic target =>
      exact (view_invariant_conversions target v.1 v.2 (tagged_pointer_base.default_ctor target)
        h).2.1
    | assign_to target dst => exact (view_invariant_conversions target v.1 v.2 dst h).2.2

/-- C11: the invariant `address == null ⇒ length == 0` holds of every view obtained from a
default-constructed one by a sequence of converting constructions and assignments, whatever the
tags involved; and every conversion or assignment whose source satisfies the invariant gives a view
that satisfies it, for every pair of backend tags. -/
theorem view_invariant_holds {S : Type} [DecidableEq S] (B0 : S) (ops : List (view_op S)) :
    view_invariant (apply_ops ⟨B0, tagged_pointer_base.default_ctor B0⟩ ops).2 ∧
    ∀ (B1 B2 : S) (src : tagged_pointer_base B2) (dst : tagged_pointer_base B1),
      view_invariant src →
      view_invariant (tagged_pointer_base.convert_ctor B1 src) ∧
      view_invariant (tagged_pointer_base.generic_ctor B1 src) ∧
      view_invariant (dst.assign src) := by
  refine ⟨?_, ?_⟩
  · apply view_invariant_apply_ops
    intro _
    rfl
  · intro B1 B2 src dst h
    exact view_invariant_conversions B1 B2 src dst h

/-- Instance of C11: a default host view is converted to the accelerator, assigned to the scenario
view and converted again; and the scenario view, which satisfies the invariant, is converted to
each of the two tags. -/
theorem view_invariant_holds_witness :
    view_invariant (apply_ops ⟨target_system.host,
      tagged_pointer_base.default_ctor target_system.host⟩
      [.construct target_system.cuda, .assign_to target_system.host scenario_view,
        .construct_generic target_system.host]).2 ∧
    view_invariant scenario_view ∧
    view_invariant (tagged_pointer_base.convert_ctor target_system.host scenario_view) ∧
    view_invariant (tagged_pointer_base.convert_ctor target_system.cuda scenario_view) :=
  have h := view_invariant_holds target_system.host
    [.construct target_system.cuda, .assign_to target_system.host scenario_view,
      .construct_generic target_system.host]
  ⟨h.1, by decide,
    (h.2 target_system.host target_system.host scenario_view scenario_view (by decide)).1,
    (h.2 target_system.cuda target_system.host scenario_view
      (tagged_pointer_base.default_ctor target_system.cuda) (by decide)).1⟩

/-- C12, as stated, fails for the generic constructor on a source with a wider size type: from
the host-tagged source of `2 ^ 32 + 3` elements at position `1000` it builds a host view of
length `3`, not the length of the source. -/
theorem generic_ctor_narrows_length :
    (tagged_pointer_base.generic_ctor target_system.host wide_source).data = 1000 ∧
    (tagged_pointer_base.generic_ctor target_system.host wide_source).size = 3 ∧
    wide_source.size = 4294967299 ∧
    ((tagged_pointer_base.generic_ctor target_system.host wide_source).data,
      (tagged_pointer_base.generic_ctor target_system.host wide_source).size)
      ≠ (wide_source.data, wide_source.size) := by
  decide

/-- C12, amended: conversion is a total function of the two tags and the source. For every pair
of tags and every source, the typed converting constructor and `operator=` give the same address
and length: those of the source when the tags are equal, `(nullptr, 0)` otherwise, whatever the
destination held. The generic constructor reading `other_pointer::system_tag` gives the same
address, and the same length reduced modulo `2 ^ 32`; so it agrees with the other two on every
source whose length fits the index type, as every source of that index type does. -/
theorem conversion_is_total_function {S : Type} [DecidableEq S] (B1 B2 : S)
    (src : tagged_pointer_base B2) (dst dst' : tagged_pointer_base B1) :
    dst.assign src = tagged_pointer_base.convert_ctor B1 src ∧
    dst'.assign src = dst.assign src ∧
    ((tagged_pointer_base.convert_ctor B1 src).data,
      (tagged_pointer_base.convert_ctor B1 src).size)
      = (if B1 = B2 then (src.data, src.size) else (nullptr, 0)) ∧
    ((tagged_pointer_base.generic_ctor B1 src).data,
      (tagged_pointer_base.generic_ctor B1 src).size)
      = (if B1 = B2 then (src.data, src.size % index_modulus) else (nullptr, 0)) ∧
    (tagged_pointer_base.generic_ctor B1 src).data
      = (tagged_pointer_base.convert_ctor B1 src).data ∧
    (tagged_pointer_base.generic_ctor B1 src).size
      = (tagged_pointer_base.convert_ctor B1 src).size % index_modulus ∧
    (src.size < index_modulus →
      tagged_pointer_base.generic_ctor B1 src = tagged_pointer_base.convert_ctor B1 src) := by
  by_cases hB : B1 = B2
  · subst hB
    refine ⟨?_, ?_, ?_, ?_, ?_, ?_, ?_⟩
    · simp [tagged_pointer_base.convert_ctor, tagged_pointer_base.assign]
    · simp [tagged_pointer_base.assign]
    · simp [tagged_pointer_base.convert_ctor, tagged_pointer_base.data, tagged_pointer_base.size]
    · simp [tagged_pointer_base.generic_ctor, tagged_pointer_base.system_tag,
        tagged_pointer_base.data, tagged_pointer_base.size]
    · simp [tagged_pointer_base.convert_ctor, tagged_pointer_base.generic_ctor,
        tagged_pointer_base.system_tag, tagged_pointer_base.data]
    · simp [tagged_pointer_base.convert_ctor, tagged_pointer_base.generic_ctor,
        tagged_pointer_base.system_tag, tagged_pointer_base.size]
    · intro hfit
      simp only [tagged_pointer_base.size] at hfit
      simp [tagged_pointer_base.convert_ctor, tagged_pointer_base.generic_ctor,
        tagged_pointer_base.system_tag, tagged_pointer_base.data, tagged_pointer_base.size,
        Nat.mod_eq_of_lt hfit]
  · simp [tagged_pointer_base.convert_ctor, tagged_pointer_base.generic_ctor,
      tagged_pointer_base.assign, tagged_pointer_base.system_tag, tagged_pointer_base.data,
      tagged_pointer_base.size, hB, index_modulus]

/-- Instance of C12: from the scenario view, whose length `3` fits the index type, the three
conversions to a host view agree and give `(1000, 3)`; to an accelerator view they give
`(nullptr, 0)`. -/
theorem conversion_is_total_function_witness :
    scenario_view.size < index_modulus ∧
    tagged_pointer_base.generic_ctor target_system.host scenario_view
      = tagged_pointer_base.convert_ctor target_system.host scenario_view ∧
    flags_view.assign scenario_view
      = tagged_pointer_base.convert_ctor target_system.host scenario_view ∧
    tagged_pointer_base.convert_ctor target_system.host scenario_view
      = { storage := 1000, storage_size := 3 } ∧
    tagged_pointer_base.generic_ctor target_system.cuda scenario_view
      = { storage := nullptr, storage_size := 0 } :=
  have h := conversion_is_total_function target_system.host target_system.host scenario_view
    flags_view flags_view
  ⟨by decide, h.2.2.2.2.2.2 (by decide), h.1, by decide, by decide⟩

/-- C13: for every view, `begin()`, `begin() const` and `cbegin()` are the address, `end()`,
`end() const` and `cend()` are the address plus the length; so `end() - begin() == size()` and the
range is empty exactly when `empty()` is true. The bridging iterators `t_begin()` and `t_end()`
are the adaptor applied to those same two positions and to nothing else. -/
theorem iterators_span_the_view {S : Type} {system : S} {Iter : Type}
    (adaptor : pointer_type → Iter) (v : tagged_pointer_base system) :
    v.begin = v.data ∧ v.begin_const = v.data ∧ v.cbegin = v.data ∧
    v.end_ = v.data + v.size ∧ v.end_const = v.data + v.size ∧ v.cend = v.data + v.size ∧
    v.end_ - v.begin = v.size ∧
    (v.begin = v.end_ ↔ v.empty = true) ∧
    v.t_begin adaptor = adaptor v.begin ∧ v.t_begin_const adaptor = adaptor v.begin_const ∧
    v.t_end adaptor = adaptor v.end_ ∧ v.t_end_const adaptor = adaptor v.end_const := by
  refine ⟨rfl, rfl, rfl, rfl, rfl, rfl, ?_, ?_, rfl, rfl, rfl, rfl⟩
  · simp [tagged_pointer_base.end_, tagged_pointer_base.begin, tagged_pointer_base.size]
  · simp [tagged_pointer_base.end_, tagged_pointer_base.begin, tagged_pointer_base.empty]

/-- C14: the accelerator view compiled as host code, with a faithful copy primitive. For every
index `i` below the length, `at(i)` and `operator[](i)` return the same value, which is the value
of the `sizeof(element)` bytes found at `address + i * sizeof(element)` in accelerator memory (so
the element itself, when those bytes are its representation); the call leaves accelerator memory
and the view as they were. -/
theorem accelerator_host_access_reads_element {T : Type}
    (cudaMemcpy : device_memory → Nat → Nat → List Nat × device_memory) (sizeof_T : Nat)
    (from_bytes : List Nat → T) (dev : device_memory) (self : pointer_cuda) (i : Nat)
    (hcopy : faithful_copy cudaMemcpy) (hi : i < self.size) :
    pointer_cuda.host_at cudaMemcpy sizeof_T from_bytes dev self i
      = pointer_cuda.host_op_index cudaMemcpy sizeof_T from_bytes dev self i ∧
    (pointer_cuda.host_at cudaMemcpy sizeof_T from_bytes dev self i).1
      = from_bytes (device_bytes dev (byte_address sizeof_T self.data + i * sizeof_T) sizeof_T) ∧
    (pointer_cuda.host_at cudaMemcpy sizeof_T from_bytes dev self i).2.1 = dev ∧
    (pointer_cuda.host_at cudaMemcpy sizeof_T from_bytes dev self i).2.2 = self ∧
    ∀ (to_bytes : T → List Nat) (x : T), from_bytes (to_bytes x) = x →
      device_bytes dev (byte_address sizeof_T self.data + i * sizeof_T) sizeof_T = to_bytes x →
      (pointer_cuda.host_at cudaMemcpy sizeof_T from_bytes dev self i).1 = x ∧
      (pointer_cuda.host_op_index cudaMemcpy sizeof_T from_bytes dev self i).1 = x := by
  have _ := hi
  have haddr : byte_address sizeof_T (self.storage + i)
      = byte_address sizeof_T self.data + i * sizeof_T := by
    simp [byte_address, tagged_pointer_base.data, Nat.add_mul]
  have hval : (pointer_cuda.host_at cudaMemcpy sizeof_T from_bytes dev self i).1
      = from_bytes (device_bytes dev (byte_address sizeof_T self.data + i * sizeof_T)
          sizeof_T) := by
    simp [pointer_cuda.host_at, pointer_cuda.storage_read, hcopy _ _ _, haddr]
  refine ⟨rfl, hval, ?_, ?_, ?_⟩
  · simp [pointer_cuda.host_at, pointer_cuda.storage_read, hcopy _ _ _]
  · simp [pointer_cuda.host_at, pointer_cuda.storage_read]
  · intro to_bytes x hx hbytes
    have hx2 : (pointer_cuda.host_at cudaMemcpy sizeof_T from_bytes dev self i).1 = x := by
      rw [hval, hbytes, hx]
    exact ⟨hx2, hx2⟩

/-- Instance of C14: the elements `10, 20, 30` of four bytes each lie at byte address `4000`; the
host accessors read `30` at index `2`. -/
theorem accelerator_host_access_reads_element_witness :
    faithful_copy plain_copy ∧ 2 < device_view.size ∧
    (pointer_cuda.host_at plain_copy 4 bytes_to_nat device_scenario device_view 2).1 = 30 ∧
    (pointer_cuda.host_op_index plain_copy 4 bytes_to_nat device_scenario device_view 2).1
      = 30 ∧
    (pointer_cuda.host_at plain_copy 4 bytes_to_nat device_scenario device_view 2).2.2
      = device_view :=
  have h := accelerator_host_access_reads_element plain_copy 4 bytes_to_nat device_scenario
    device_view 2 (fun _ _ _ => rfl) (by decide)
  have h2 := h.2.2.2.2 (fun x => [x % 256, x / 256 % 256, x / 65536 % 256, x / 16777216 % 256])
    30 (by decide) (by decide)
  ⟨fun _ _ _ => rfl, by decide, h2.1, h2.2, h.2.2.2.1⟩

/-- C15, evaluated: for views with the same address and length, the device accessors `at(i)`,
`operator[](i)` and `front()` of the accelerator view are the references that the host view
accessors of the same name give. For `back()` they are not: over `[10, 20, 30]` the device
accessor is bound to the last element and reads `30`, the host accessor hands back the position
`1002` of that element. -/
theorem device_back_differs_from_host_back :
    (∀ (address n i : Nat),
      pointer_cuda.at_ { storage := address, storage_size := n } i
        = pointer_host.at_ { storage := address, storage_size := n } i ∧
      pointer_cuda.at_const { storage := address, storage_size := n } i
        = pointer_host.at_const { storage := address, storage_size := n } i ∧
      pointer_cuda.op_index { storage := address, storage_size := n } i
        = pointer_host.op_index { storage := address, storage_size := n } i ∧
      pointer_cuda.op_index_const { storage := address, storage_size := n } i
        = pointer_host.op_index_const { storage := address, storage_size := n } i ∧
      pointer_cuda.front { storage := address, storage_size := n }
        = pointer_host.front { storage := address, storage_size := n } ∧
      pointer_cuda.front_const { storage := address, storage_size := n }
        = pointer_host.front_const { storage := address, storage_size := n }) ∧
    pointer_cuda.back device_view = reference.element 1002 ∧
    pointer_cuda.back_const device_view = reference.element 1002 ∧
    pointer_host.back scenario_view = reference.pointer_temporary 1002 ∧
    pointer_host.back_const scenario_view = reference.pointer_temporary 1002 ∧
    (pointer_cuda.back device_view).load pointer_to_int scenario_memory = 30 ∧
    (pointer_host.back scenario_view).load pointer_to_int scenario_memory = 1002 ∧
    pointer_cuda.back device_view ≠ pointer_host.back scenario_view ∧
    pointer_cuda.back_const device_view ≠ pointer_host.back_const scenario_view := by
  refine ⟨fun _ _ _ => ⟨rfl, rfl, rfl, rfl, rfl, rfl⟩, ?_, ?_, ?_, ?_, ?_, ?_, ?_, ?_⟩ <;> decide

/-! ## Theorems: the retry loop of the floating-point `add` -/

/-- C16: one iteration of the loop of the host floating-point `add`, from the compare-exchange on,
with `oldval` read and `contents` in the location. The loop is left exactly when the
compare-exchange succeeds, that is when `contents` has the bits of `oldval`; it then returns
`oldval` and the location holds the bits of `oldval + val`. When the compare-exchange fails the
location is as it was, `expected` holds the bits of the location, which differ from those of
`oldval`, and the call stands at the top of the loop, where its next step reads the location
again. All of this is about bit patterns, so it holds of NaN patterns as of any other: a call
that read a NaN and finds the same bits in the location leaves the loop. -/
theorem float_add_exit_iff_cas_success (fadd : Nat → Nat → Nat) (val contents oldval k : Nat) :
    ((∃ o, (atomics_host.add_float_step fadd val contents
        { pc := .at_cas oldval, iterations := k }).2.pc = .returned o)
      ↔ (atomic_compare_exchange contents oldval (fadd oldval val)).1 = true) ∧
    ((atomic_compare_exchange contents oldval (fadd oldval val)).1 = true ↔ contents = oldval) ∧
    ((atomic_compare_exchange contents oldval (fadd oldval val)).1 = true →
      atomics_host.add_float_step fadd val contents { pc := .at_cas oldval, iterations := k }
        = (fadd oldval val, { pc := .returned oldval, iterations := k + 1 })) ∧
    ((atomic_compare_exchange contents oldval (fadd oldval val)).1 = false →
      (atomic_compare_exchange contents oldval (fadd oldval val)).2.1 = contents ∧
      (atomic_compare_exchange contents oldval (fadd oldval val)).2.2 = contents ∧
      (atomic_compare_exchange contents oldval (fadd oldval val)).2.2 ≠ oldval ∧
      atomics_host.add_float_step fadd val contents { pc := .at_cas oldval, iterations := k }
        = (contents, { pc := .at_read, iterations := k + 1 }) ∧
      ∀ later : Nat,
        atomics_host.add_float_step fadd val later
          (atomics_host.add_float_step fadd val contents
            { pc := .at_cas oldval, iterations := k }).2
          = (later, { pc := .at_cas later, iterations := k + 1 })) ∧
    (f32_is_nan oldval = true → contents = oldval →
      atomics_host.add_float_step fadd val contents { pc := .at_cas oldval, iterations := k }
        = (fadd oldval val, { pc := .returned oldval, iterations := k + 1 })) := by
  by_cases h : contents = oldval
  · subst h
    simp [atomics_host.add_float_step, atomic_compare_exchange]
  · have h2 : ¬ oldval = contents := fun e => h e.symm
    simp [atomics_host.add_float_step, atomic_compare_exchange, h, h2]

/-- Instance of C16 on NaN patterns: a call that read the NaN `0x7FC00000` and finds it in place
succeeds and returns it; one that finds the NaN `0x7FC00001` instead fails, writes nothing and
goes back to the read. -/
theorem float_add_exit_iff_cas_success_witness :
    f32_is_nan 0x7FC00000 = true ∧
    atomics_host.add_float_step f32_add 0x3F800000 0x7FC00000
      { pc := .at_cas 0x7FC00000, iterations := 0 }
      = (0x7FC00000, { pc := .returned 0x7FC00000, iterations := 1 }) ∧
    atomics_host.add_float_step f32_add 0x3F800000 0x7FC00001
      { pc := .at_cas 0x7FC00000, iterations := 0 }
      = (0x7FC00001, { pc := .at_read, iterations := 1 }) :=
  have h := float_add_exit_iff_cas_success f32_add 0x3F800000 0x7FC00000 0x7FC00000 0
  have h2 := float_add_exit_iff_cas_success f32_add 0x3F800000 0x7FC00001 0x7FC00000 0
  ⟨by decide, h.2.2.2.2 (by decide) rfl, (h2.2.2.2.1 (by decide)).2.2.2.1⟩

/-- A call that has returned is not moved by any event. -/
theorem run_events_returned_call (fadd : Nat → Nat → Nat) (val : Nat) (trace : List event) :
    ∀ (m o k : Nat),
      (run_events fadd val (m, { pc := .returned o, iterations := k }) trace).2
        = { pc := .returned o, iterations := k } := by
  induction trace with
  | nil => intro m o k; rfl
  | cons e trace ih =>
    intro m o k
    cases e with
    | call_step => exact ih m o k
    | other_write bits => exact ih bits o k

/-- After a call has returned no change of the location is counted. -/
theorem changes_returned (fadd : Nat → Nat → Nat) (val : Nat) (trace : List event) :
    ∀ (m o k : Nat), changes fadd val (m, { pc := .returned o, iterations := k }) trace = 0 := by
  induction trace with
  | nil => intro m o k; rfl
  | cons e trace ih =>
    intro m o k
    cases e with
    | call_step => exact ih m o k
    | other_write bits =>
      simp only [changes, float_call.in_progress, Bool.false_and, Bool.false_eq_true, if_false,
        zero_add]
      exact ih bits o k

/-- The budgets bound a call under any sequence of events: the iterations it finishes, and the
steps of its own after which it has returned. -/
theorem run_events_budget (fadd : Nat → Nat → Nat) (val : Nat) (trace : List event) :
    ∀ s : Nat × float_call,
      (run_events fadd val s trace).2.iterations
        ≤ s.2.iterations + iteration_budget s (changes fadd val s trace) ∧
      (step_budget s (changes fadd val s trace) ≤ trace.count .call_step →
        ∃ o, (run_events fadd val s trace).2.pc = .returned o) := by
  induction trace with
  | nil =>
    rintro ⟨m, pc, it⟩
    refine ⟨Nat.le_add_right _ _, ?_⟩
    cases pc with
    | at_read => intro h; simp [step_budget, changes] at h
    | at_cas o => intro h; simp [step_budget, changes] at h
    | returned o => intro _; exact ⟨o, rfl⟩
  | cons e trace ih =>
    rintro ⟨m, pc, it⟩
    cases e with
    | call_step =>
      cases pc with
      | at_read =>
        have hs : event_step fadd val (m, { pc := .at_read, iterations := it }) .call_step
            = (m, { pc := .at_cas m, iterations := it }) := rfl
        obtain ⟨h1, h2⟩ := ih (m, { pc := .at_cas m, iterations := it })
        simp only [run_events, List.foldl_cons, changes, hs] at h1 h2 ⊢
        simp only [iteration_budget, step_budget, if_true, List.count_cons_self] at h1 h2 ⊢
        refine ⟨by omega, fun h => h2 (by omega)⟩
      | at_cas o =>
        by_cases hm : m = o
        · subst hm
          have hs : event_step fadd val (m, { pc := .at_cas m, iterations := it }) .call_step
              = (fadd m val, { pc := .returned m, iterations := it + 1 }) := by
            simp [event_step, atomics_host.add_float_step, atomic_compare_exchange]
          have hr := run_events_returned_call fadd val trace (fadd m val) m (it + 1)
          simp only [run_events, List.foldl_cons, changes, hs] at hr ⊢
          rw [hr]
          simp only [iteration_budget, if_true]
          refine ⟨by omega, fun _ => ⟨m, rfl⟩⟩
        · have hs : event_step fadd val (m, { pc := .at_cas o, iterations := it }) .call_step
              = (m, { pc := .at_read, iterations := it + 1 }) := by
            simp [event_step, atomics_host.add_float_step, atomic_compare_exchange, hm]
          obtain ⟨h1, h2⟩ := ih (m, { pc := .at_read, iterations := it + 1 })
          simp only [run_events, List.foldl_cons, changes, hs] at h1 h2 ⊢
          simp only [iteration_budget, step_budget, hm, if_false, List.count_cons_self]
            at h1 h2 ⊢
          refine ⟨by omega, fun h => h2 (by omega)⟩
      | returned o =>
        have hr := run_events_returned_call fadd val (event.call_step :: trace) m o it
        rw [hr]
        exact ⟨Nat.le_add_right _ _, fun _ => ⟨o, rfl⟩⟩
    | other_write bits =>
      have hcount : (event.other_write bits :: trace).count .call_step
          = trace.count .call_step := by
        simp
      cases pc with
      | at_read =>
        obtain ⟨h1, h2⟩ := ih (bits, { pc := .at_read, iterations := it })
        simp only [run_events, List.foldl_cons, changes, event_step] at h1 h2 ⊢
        rw [hcount]
        simp only [iteration_budget, step_budget] at h1 h2 ⊢
        refine ⟨by omega, fun h => h2 (by omega)⟩
      | at_cas o =>
        obtain ⟨h1, h2⟩ := ih (bits, { pc := .at_cas o, iterations := it })
        simp only [run_events, List.foldl_cons, changes, event_step] at h1 h2 ⊢
        rw [hcount]
        simp only [iteration_budget, step_budget, float_call.in_progress, Bool.true_and,
          bne_iff_ne, ne_eq, ite_not] at h1 h2 ⊢
        by_cases hbm : bits = m
        · subst hbm
          simp only [if_true] at h1 h2 ⊢
          refine ⟨by omega, fun h => h2 (by omega)⟩
        · by_cases hbo : bits = o
          · subst hbo
            have hmb : ¬ m = bits := fun e => hbm e.symm
            simp only [hbm, hmb, if_true, if_false] at h1 h2 ⊢
            refine ⟨by omega, fun h => h2 (by omega)⟩
          · simp only [hbm, hbo, if_false] at h1 h2 ⊢
            refine ⟨?_, fun h => h2 ?_⟩
            · split <;> omega
            · split at h <;> omega
      | returned o =>
        have hr := run_events_returned_call fadd val (event.other_write bits :: trace) m o it
        rw [hr]
        exact ⟨Nat.le_add_right _ _, fun _ => ⟨o, rfl⟩⟩

/-- A call that has returned has finished at least one iteration. -/
theorem run_events_iterations_pos (fadd : Nat → Nat → Nat) (val : Nat) (trace : List event) :
    ∀ s : Nat × float_call, (s.2.in_progress = true ∨ 1 ≤ s.2.iterations) →
      ((run_events fadd val s trace).2.in_progress = true ∨
        1 ≤ (run_events fadd val s trace).2.iterations) := by
  induction trace with
  | nil => intro s h; exact h
  | cons e trace ih =>
    rintro ⟨m, pc, it⟩ h
    cases e with
    | call_step =>
      refine ih _ ?_
      cases pc with
      | at_read => left; rfl
      | at_cas o =>
        by_cases hm : m = o
        · right
          simp [event_step, atomics_host.add_float_step, atomic_compare_exchange, hm]
        · left
          simp [event_step, atomics_host.add_float_step, atomic_compare_exchange, hm,
            float_call.in_progress]
      | returned o => exact h
    | other_write bits => exact ih (bits, { pc := pc, iterations := it }) h

/-- C17: the loop of the host floating-point `add` ends under bounded contention. If other writers
change the bit pattern of the location at most `m` times while a call is in progress, the call
finishes at most `m + 1` loop iterations, and once it has taken `2 * (m + 1)` steps of its own
(a read and a compare-exchange per iteration) it has returned, after at least one iteration. -/
theorem float_add_terminates_under_bounded_contention (fadd : Nat → Nat → Nat)
    (val contents : Nat) (trace : List event) (m : Nat)
    (hm : changes fadd val (contents, float_call.start) trace ≤ m) :
    (run_events fadd val (contents, float_call.start) trace).2.iterations ≤ m + 1 ∧
    (2 * (m + 1) ≤ trace.count .call_step →
      ∃ o, (run_events fadd val (contents, float_call.start) trace).2.pc = .returned o ∧
        1 ≤ (run_events fadd val (contents, float_call.start) trace).2.iterations) := by
  obtain ⟨h1, h2⟩ := run_events_budget fadd val trace (contents, float_call.start)
  have h3 := run_events_iterations_pos fadd val trace (contents, float_call.start)
    (Or.inl rfl)
  have hb : iteration_budget (contents, float_call.start)
      (changes fadd val (contents, float_call.start) trace)
      = changes fadd val (contents, float_call.start) trace + 1 := rfl
  have hsb : step_budget (contents, float_call.start)
      (changes fadd val (contents, float_call.start) trace)
      = 2 * changes fadd val (contents, float_call.start) trace + 2 := rfl
  have hit : (contents, float_call.start).2.iterations = 0 := rfl
  rw [hb, hit] at h1
  rw [hsb] at h2
  refine ⟨by omega, ?_⟩
  intro hsteps
  obtain ⟨o, ho⟩ := h2 (by omega)
  refine ⟨o, ho, ?_⟩
  rcases h3 with h3 | h3
  · simp [float_call.in_progress, ho] at h3
  · exact h3

/-- Instance of C17: a call adding `1.0f` to a location holding `+0.0f` is overtaken once, by a
writer storing `2.0f` between its read and its compare-exchange; it returns `2.0f` after two
iterations and leaves `3.0f`. -/
theorem float_add_terminates_under_bounded_contention_witness :
    changes f32_add 0x3F800000 (0, float_call.start)
      [.call_step, .other_write 0x40000000, .call_step, .call_step, .call_step] ≤ 1 ∧
    2 * (1 + 1) ≤ [event.call_step, .other_write 0x40000000, .call_step, .call_step,
      .call_step].count .call_step ∧
    run_events f32_add 0x3F800000 (0, float_call.start)
      [.call_step, .other_write 0x40000000, .call_step, .call_step, .call_step]
      = (0x40400000, { pc := .returned 0x40000000, iterations := 2 }) ∧
    (run_events f32_add 0x3F800000 (0, float_call.start)
      [.call_step, .other_write 0x40000000, .call_step, .call_step, .call_step]).2.iterations
      ≤ 1 + 1 :=
  have h := float_add_terminates_under_bounded_contention f32_add 0x3F800000 0
    [.call_step, .other_write 0x40000000, .call_step, .call_step, .call_step] 1 (by decide)
  ⟨by decide, by decide, by decide, h.1⟩

/-! ## Theorems: every call of the floating-point `add` returns -/

/-- An entry of a list is at most the sum over the list. -/
theorem le_sum_map {α : Type} (f : α → Nat) (y : α) :
    ∀ (l : List α) (t : Nat), l[t]? = some y → f y ≤ (l.map f).sum := by
  intro l
  induction l with
  | nil => intro t h; simp at h
  | cons a l ih =>
    intro t h
    cases t with
    | zero =>
      simp only [List.getElem?_cons_zero, Option.some.injEq] at h
      subst h
      simp only [List.map_cons, List.sum_cons]
      omega
    | succ t =>
      simp only [List.getElem?_cons_succ] at h
      have := ih t h
      simp only [List.map_cons, List.sum_cons]
      omega

/-- Value of the bound for a caller with calls left. -/
theorem steps_left_of_todo (s : float_system) (j k : Nat) (c : float_call)
    (h : s.callers[j]? = some { todo := k + 1, call := c }) :
    steps_left s j
      = 2 * (s.callers.map float_caller.todo).sum - 1 + call_slack s.location c := by
  simp [steps_left, h]

/-- The bound is zero for a caller without calls left. -/
theorem steps_left_of_done (s : float_system) (j : Nat) (c : float_call)
    (h : s.callers[j]? = some { todo := 0, call := c }) : steps_left s j = 0 := by
  simp [steps_left, h]

/-- The bound is zero where there is no caller. -/
theorem steps_left_of_none (s : float_system) (j : Nat) (h : s.callers[j]? = none) :
    steps_left s j = 0 := by
  simp [steps_left, h]

/-- The slack is at most two. -/
theorem call_slack_le (location : Nat) (c : float_call) : call_slack location c ≤ 2 := by
  unfold call_slack
  split
  · omega
  · split <;> omega
  · omega

/-- What a step of a caller with calls left does: it replaces the entry of the caller, moves the
caller forward, and changes the location only when one of its calls returns. -/
theorem float_step_effect (fadd : Nat → Nat → Nat) (val : Nat) (s : float_system) (t k : Nat)
    (c : float_call) (hp : s.callers[t]? = some { todo := k + 1, call := c }) :
    ∃ (entry : float_caller),
      (float_system.step fadd val s t).callers = s.callers.set t entry ∧
      2 * entry.todo + call_slack (float_system.step fadd val s t).location entry.call + 1
        ≤ 2 * (k + 1) + call_slack s.location c ∧
      ((float_system.step fadd val s t).location = s.location ∧ entry.todo ≤ k + 1 ∨
        entry.todo = k) := by
  obtain ⟨pc, it⟩ := c
  cases pc with
  | at_read =>
    refine ⟨{ todo := k + 1, call := { pc := .at_cas s.location, iterations := it } }, ?_, ?_, ?_⟩
    · simp [float_system.step, hp, atomics_host.add_float_step]
    · simp [float_system.step, hp, atomics_host.add_float_step, call_slack]
    · left
      simp [float_system.step, hp, atomics_host.add_float_step]
  | at_cas oldval =>
    by_cases heq : s.location = oldval
    · refine ⟨{ todo := k, call := float_call.start }, ?_, ?_, ?_⟩
      · simp [float_system.step, hp, atomics_host.add_float_step, atomic_compare_exchange, heq]
      · simp [float_system.step, hp, atomics_host.add_float_step, atomic_compare_exchange, heq,
          call_slack, float_call.start]
        omega
      · right
        rfl
    · refine ⟨{ todo := k + 1, call := { pc := .at_read, iterations := it + 1 } }, ?_, ?_, ?_⟩
      · simp [float_system.step, hp, atomics_host.add_float_step, atomic_compare_exchange, heq]
      · simp [float_system.step, hp, atomics_host.add_float_step, atomic_compare_exchange, heq,
          call_slack]
      · left
        simp [float_system.step, hp, atomics_host.add_float_step, atomic_compare_exchange, heq]
  | returned o =>
    refine ⟨{ todo := k, call := float_call.start }, ?_, ?_, ?_⟩
    · simp [float_system.step, hp, atomics_host.add_float_step]
    · simp [float_system.step, hp, atomics_host.add_float_step, call_slack, float_call.start]
      omega
    · right
      rfl

/-- A step of caller `t` lowers the bound of caller `t` by one at least, as long as it is not
zero, and raises the bound of no caller. -/
theorem steps_left_step (fadd : Nat → Nat → Nat) (val : Nat) (s : float_system) (t j : Nat) :
    steps_left (float_system.step fadd val s t) j
      ≤ steps_left s j - (if j = t then 1 else 0) := by
  cases hp : s.callers[t]? with
  | none =>
    have hstep : float_system.step fadd val s t = s := by simp [float_system.step, hp]
    rw [hstep]
    by_cases hj : j = t
    · subst hj
      rw [steps_left_of_none s j hp]
      omega
    · simp [hj]
  | some c0 =>
    obtain ⟨todo, c⟩ := c0
    cases todo with
    | zero =>
      have hstep : float_system.step fadd val s t = s := by simp [float_system.step, hp]
      rw [hstep]
      by_cases hj : j = t
      · subst hj
        rw [steps_left_of_done s j c hp]
        omega
      · simp [hj]
    | succ k =>
      obtain ⟨entry, hcallers, hown, hloc⟩ := float_step_effect fadd val s t k c hp
      have hset := sum_map_set float_caller.todo entry { todo := k + 1, call := c } s.callers t hp
      have hle := le_sum_map float_caller.todo { todo := k + 1, call := c } s.callers t hp
      have htlt : t < s.callers.length := by
        rcases List.getElem?_eq_some_iff.mp hp with ⟨h, _⟩
        exact h
      simp only at hset hle
      by_cases hj : j = t
      · subst hj
        have hnew : (float_system.step fadd val s j).callers[j]? = some entry := by
          rw [hcallers]
          exact List.getElem?_set_self htlt
        rw [steps_left_of_todo s j k c hp]
        simp only [if_true]
        obtain ⟨etodo, ecall⟩ := entry
        cases etodo with
        | zero =>
          rw [steps_left_of_done _ j ecall hnew]
          omega
        | succ k2 =>
          rw [steps_left_of_todo _ j k2 ecall hnew, hcallers]
          simp only at hown hset
          omega
      · have hsame : (float_system.step fadd val s t).callers[j]? = s.callers[j]? := by
          rw [hcallers]
          exact List.getElem?_set_ne (Ne.symm hj)
        simp only [hj, if_false, Nat.sub_zero]
        cases hq : s.callers[j]? with
        | none =>
          rw [hq] at hsame
          rw [steps_left_of_none _ j hsame]
          omega
        | some cj0 =>
          obtain ⟨tj, cj⟩ := cj0
          rw [hq] at hsame
          cases tj with
          | zero =>
            rw [steps_left_of_done _ j cj hsame]
            omega
          | succ kj =>
            have hle2 := le_sum_map float_caller.todo { todo := kj + 1, call := cj }
              (float_system.step fadd val s t).callers j hsame
            rw [steps_left_of_todo _ j kj cj hsame, steps_left_of_todo s j kj cj hq]
            rw [hcallers] at hle2 ⊢
            simp only at hle2
            have hs1 := call_slack_le (float_system.step fadd val s t).location cj
            rcases hloc with ⟨hl, he⟩ | he
            · rw [hl]
              omega
            · omega

/-- Along a schedule the bound of caller `j` drops by one for each of its steps, down to zero. -/
theorem steps_left_run (fadd : Nat → Nat → Nat) (val : Nat) (j : Nat) (sched : List Nat) :
    ∀ s : float_system,
      steps_left (float_system.run fadd val s sched) j ≤ steps_left s j - sched.count j := by
  induction sched with
  | nil => intro s; simp [float_system.run]
  | cons t sched ih =>
    intro s
    have h1 := ih (float_system.step fadd val s t)
    have h2 := steps_left_step fadd val s t j
    have hrun : float_system.run fadd val s (t :: sched)
        = float_system.run fadd val (float_system.step fadd val s t) sched := rfl
    rw [hrun, List.count_cons]
    by_cases hj : j = t
    · subst hj
      simp only [if_true, beq_self_eq_true] at h2 ⊢
      omega
    · have hne : (t == j) = false := by
        simpa using (Ne.symm hj)
      simp only [hj, if_false, hne, Bool.false_eq_true] at h2 ⊢
      omega

/-- A caller whose bound is zero has no call left. -/
theorem todo_zero_of_steps_left (s : float_system) (j : Nat) (c : float_caller)
    (hc : s.callers[j]? = some c) (h0 : steps_left s j = 0) : c.todo = 0 := by
  obtain ⟨todo, call⟩ := c
  cases todo with
  | zero => rfl
  | succ k =>
    have hle := le_sum_map float_caller.todo { todo := k + 1, call := call } s.callers j hc
    rw [steps_left_of_todo s j k call hc] at h0
    simp only at hle
    exfalso
    omega

/-- Before any call the bound of each caller is at most twice the number of calls to be made. -/
theorem steps_left_init (bits : Nat) (counts : List Nat) (j : Nat) :
    steps_left (float_system.init bits counts) j ≤ 2 * counts.sum := by
  have hsum : ((float_system.init bits counts).callers.map float_caller.todo).sum
      = counts.sum := by
    simp [float_system.init, Function.comp_def]
  cases hq : (float_system.init bits counts).callers[j]? with
  | none => rw [steps_left_of_none _ j hq]; omega
  | some c0 =>
    obtain ⟨todo, c⟩ := c0
    cases todo with
    | zero => rw [steps_left_of_done _ j c hq]; omega
    | succ k =>
      have hle := le_sum_map float_caller.todo { todo := k + 1, call := c } _ j hq
      have hc : c = float_call.start := by
        simp only [float_system.init, List.getElem?_map] at hq
        cases hcj : counts[j]? with
        | none => simp [hcj] at hq
        | some n =>
          simp only [hcj, Option.map_some', Option.some.injEq, float_caller.mk.injEq] at hq
          exact hq.2.symm
      rw [steps_left_of_todo _ j k c hq, hsum, hc]
      simp only [hsum] at hle
      simp only [call_slack, float_call.start]
      omega

/-- A schedule that gives every caller twice as many steps as there are calls to be made lets
every call return. -/
theorem float_system_completes (fadd : Nat → Nat → Nat) (val bits : Nat) (counts sched : List Nat)
    (hfair : ∀ t, t < counts.length → 2 * counts.sum ≤ sched.count t) :
    (float_system.run fadd val (float_system.init bits counts) sched).complete = true := by
  have hlen : ∀ (sc : List Nat) (s : float_system),
      (float_system.run fadd val s sc).callers.length = s.callers.length := by
    intro sc
    induction sc with
    | nil => intro s; rfl
    | cons t sc ih =>
      intro s
      have hrun : float_system.run fadd val s (t :: sc)
          = float_system.run fadd val (float_system.step fadd val s t) sc := rfl
      rw [hrun, ih]
      cases hp : s.callers[t]? with
      | none => simp [float_system.step, hp]
      | some c0 =>
        obtain ⟨todo, c⟩ := c0
        cases todo with
        | zero => simp [float_system.step, hp]
        | succ k =>
          obtain ⟨entry, hcallers, _, _⟩ := float_step_effect fadd val s t k c hp
          rw [hcallers, List.length_set]
  unfold float_system.complete
  rw [List.all_eq_true]
  intro c hc
  obtain ⟨j, hj⟩ := List.mem_iff_getElem?.mp hc
  have hjlt : j < counts.length := by
    rcases List.getElem?_eq_some_iff.mp hj with ⟨h, _⟩
    rw [hlen] at h
    simpa [float_system.init] using h
  have h1 := steps_left_run fadd val j sched (float_system.init bits counts)
  have h2 := steps_left_init bits counts j
  have h3 := hfair j hjlt
  have h0 : steps_left (float_system.run fadd val (float_system.init bits counts) sched) j
      = 0 := by omega
  simpa using todo_zero_of_steps_left _ j c hj h0

/-- C10, amended: callers make `counts.sum = K` calls of the host floating-point `add(loc, v)` in
all on a location initialised to `+0.0f`. In every interleaving of their reads and
compare-exchanges that gives each caller `2 * K` steps, every call has returned; the location then
holds the pattern obtained by `K` successive additions of `v` starting from `+0.0f`, and the
values returned are, in the order of the successful compare-exchanges, the partial results of
those additions: no contribution is lost and none is counted twice. Every other interleaving in
which all calls have returned ends with the same location and the same returned values. When `v`
is finite and each of these `K` additions is exact, the final value is `K * v` and the `i`-th
returned value is `i * v`, so that consecutive ones differ by exactly `v`; when moreover `v` is
not zero the returned patterns are pairwise distinct. -/
theorem float_add_linearizable (fadd : Nat → Nat → Nat) (val : Nat) (counts sched : List Nat)
    (hfair : ∀ t, t < counts.length → 2 * counts.sum ≤ sched.count t) :
    (float_system.run fadd val (float_system.init 0 counts) sched).complete = true ∧
    (float_system.run fadd val (float_system.init 0 counts) sched).location
      = float_chain fadd val 0 counts.sum ∧
    (float_system.run fadd val (float_system.init 0 counts) sched).returned
      = (List.range counts.sum).map (float_chain fadd val 0) ∧
    (∀ other : List Nat,
      (float_system.run fadd val (float_system.init 0 counts) other).complete = true →
      (float_system.run fadd val (float_system.init 0 counts) other).location
        = (float_system.run fadd val (float_system.init 0 counts) sched).location ∧
      (float_system.run fadd val (float_system.init 0 counts) other).returned
        = (float_system.run fadd val (float_system.init 0 counts) sched).returned) ∧
    ∀ sv : Int, f32_scaled val = some sv →
      (∀ k, k < counts.sum → ∃ x : Int,
        f32_scaled (float_chain fadd val 0 k) = some x ∧
        f32_scaled (fadd (float_chain fadd val 0 k) val) = some (x + sv)) →
      f32_scaled (float_system.run fadd val (float_system.init 0 counts) sched).location
        = some ((counts.sum : Int) * sv) ∧
      (float_system.run fadd val (float_system.init 0 counts) sched).returned.map f32_scaled
        = (List.range counts.sum).map (fun i : Nat => some ((i : Int) * sv)) ∧
      (sv ≠ 0 →
        (float_system.run fadd val (float_system.init 0 counts) sched).returned.Nodup) := by
  have hfinal : ∀ sc : List Nat,
      (float_system.run fadd val (float_system.init 0 counts) sc).complete = true →
      (float_system.run fadd val (float_system.init 0 counts) sc).location
        = float_chain fadd val 0 counts.sum ∧
      (float_system.run fadd val (float_system.init 0 counts) sc).returned
        = (List.range counts.sum).map (float_chain fadd val 0) := by
    intro sc hc
    obtain ⟨hloc, hret, hsum, _⟩ :=
      float_invariant_run fadd val 0 counts.sum sc _ (float_invariant_init fadd val 0 counts)
    have hzero : ((float_system.run fadd val (float_system.init 0 counts) sc).callers.map
        float_caller.todo).sum = 0 := by
      apply sum_map_eq_zero
      intro x hx
      have := List.all_eq_true.mp hc x hx
      simpa using this
    have hlen : (float_system.run fadd val (float_system.init 0 counts) sc).returned.length
        = counts.sum := by omega
    rw [hlen] at hloc hret
    exact ⟨hloc, hret⟩
  have hc := float_system_completes fadd val 0 counts sched hfair
  obtain ⟨hloc, hret⟩ := hfinal sched hc
  refine ⟨hc, hloc, hret, ?_, ?_⟩
  · intro other hother
    obtain ⟨h1, h2⟩ := hfinal other hother
    exact ⟨h1.trans hloc.symm, h2.trans hret.symm⟩
  intro sv _ hexact
  have hchain := float_chain_scaled fadd val sv counts.sum hexact
  refine ⟨?_, ?_, ?_⟩
  · rw [hloc]
    exact hchain _ (le_refl _)
  · rw [hret, List.map_map]
    apply List.map_congr_left
    intro i hi
    exact hchain i (le_of_lt (List.mem_range.mp hi))
  · intro hsv
    rw [hret]
    apply List.Nodup.map_on _ (List.nodup_range _)
    intro i hi j hj hij
    have h1 := hchain i (le_of_lt (List.mem_range.mp hi))
    have h2 := hchain j (le_of_lt (List.mem_range.mp hj))
    rw [hij, h2] at h1
    simp only [Option.some.injEq] at h1
    have h3 : (j : Int) = (i : Int) := mul_right_cancel₀ hsv h1
    exact_mod_cast h3.symm

/-- Instance of C10: two callers add `1.0f` once each and are given four steps or more each; the
second caller reads before the first one updates, fails its compare-exchange and goes round the
loop again. Both calls return, the location ends with `2.0f` and the values returned are `+0.0f`
and `1.0f`. -/
theorem float_add_linearizable_witness :
    (∀ t, t < [1, 1].length → 2 * [1, 1].sum ≤ [0, 1, 0, 1, 1, 1, 0, 0, 1].count t) ∧
    (float_system.run f32_add 0x3F800000 (float_system.init 0 [1, 1])
      [0, 1, 0, 1, 1, 1, 0, 0, 1]).complete = true ∧
    (float_system.run f32_add 0x3F800000 (float_system.init 0 [1, 1])
      [0, 1, 0, 1, 1, 1, 0, 0, 1]).location = 0x40000000 ∧
    (float_system.run f32_add 0x3F800000 (float_system.init 0 [1, 1])
      [0, 1, 0, 1, 1, 1, 0, 0, 1]).returned = [0, 0x3F800000] ∧
    f32_scaled (float_system.run f32_add 0x3F800000 (float_system.init 0 [1, 1])
      [0, 1, 0, 1, 1, 1, 0, 0, 1]).location = some (2 * (2 ^ 23 * 2 ^ 126)) ∧
    (float_system.run f32_add 0x3F800000 (float_system.init 0 [1, 1])
      [0, 1, 0, 1, 1, 1, 0, 0, 1]).returned.Nodup :=
  have hfair : ∀ t, t < [1, 1].length → 2 * [1, 1].sum ≤ [0, 1, 0, 1, 1, 1, 0, 0, 1].count t := by
    decide
  have h := float_add_linearizable f32_add 0x3F800000 [1, 1] [0, 1, 0, 1, 1, 1, 0, 0, 1] hfair
  have hexact : ∀ k, k < [1, 1].sum → ∃ x : Int,
      f32_scaled (float_chain f32_add 0x3F800000 0 k) = some x ∧
      f32_scaled (f32_add (float_chain f32_add 0x3F800000 0 k) 0x3F800000)
        = some (x + 2 ^ 23 * 2 ^ 126) := by
    intro k hk
    have hk2 : k < 2 := hk
    interval_cases k
    · exact ⟨0, by decide, by decide⟩
    · exact ⟨2 ^ 23 * 2 ^ 126, by decide, by decide⟩
  have h3 := h.2.2.2.2 (2 ^ 23 * 2 ^ 126) (by decide) hexact
  ⟨hfair, h.1, h.2.1, h.2.2.1, h3.1, h3.2.2 (by decide)⟩

end lift
